import Mathlib

/-!
Corange skeleton store and rig file loader (`src/skeleton.c`)

A shallow embedding of the skeleton store of `skeleton.c`, of its
forward-kinematics transform computation and of the loader `skl_load_file`,
followed by the properties established about them.

Modelling conventions

* A `bone*` is modelled by the index of the bone in the bone sequence of the
  skeleton that owns it, `NULL` by `none`.  Every parent pointer the code
  stores is the result of `skeleton_bone_id` on the owning skeleton, so this
  is the only kind of non-null bone pointer the code produces.  An index
  outside the bone sequence does not denote a bone of the skeleton.
* The C arrays `bones`, `transforms` and `inv_transforms` are three separate
  lists; `num_bones` is the number of entries of `bones`.
* `float` is taken as exact rational arithmetic and `matrix_4x4` as a
  four-by-four rational matrix.
* `bone_transform` and the two generation functions, whose C bodies do not
  return on a cyclic parent graph, return an `Option`; the depth of the
  recursion is bounded by an explicit `fuel` argument, and `none` also stands
  for an access to a bone or an array entry that is not there.
* The input of the loader is the list of the lines of the file, each the C
  string that `SDL_RWreadline` leaves in `line`.  `sscanf` and `strstr` are
  modelled on the characters of a line, as the GNU C library performs them:
  an `int` read by `%i` is the low 32 bits of the `long` that the number is
  converted to, and `%f` reads decimal and hexadecimal numbers, infinities
  and NaNs.  A call of `error`
  and a write through a null bone pointer end the load with a
  `load_failure`; a pose line that stores an infinity or a NaN in a bone,
  which exact arithmetic does not have, ends it with `not_finite`, and
  nothing is stated about such a load.
-/

namespace Corange

/-! ## Vector and matrix library (external to `skeleton.c`) -/

/-- Modelled from the spec: the `vector3` type of the vector library, which is
not part of `skeleton.c`; three scalar components. -/
structure vector3 where
  x : ℚ
  y : ℚ
  z : ℚ
deriving DecidableEq

/-- Modelled from the spec: the `matrix_4x4` type of the matrix library, which
is not part of `skeleton.c`; a four-by-four matrix of scalars. -/
abbrev matrix_4x4 : Type := Matrix (Fin 4) (Fin 4) ℚ

/-- Modelled from the spec: `v3_zero` of the vector library, the zero vector. -/
def v3_zero : vector3 := ⟨0, 0, 0⟩

/-- Modelled from the spec: `v3` of the vector library, construction of a
3-vector from its components. -/
def v3 (x y z : ℚ) : vector3 := ⟨x, y, z⟩

/-- Modelled from the spec: `m44_id` of the matrix library, the identity
matrix. -/
def m44_id : matrix_4x4 := 1

/-- Modelled from the spec: `m44_mul_m44` of the matrix library, the matrix
product. -/
def m44_mul_m44 (a b : matrix_4x4) : matrix_4x4 := a * b

/-- Modelled from the spec: `m44_translation` of the matrix library,
translation-from-vector: the identity matrix with the vector in the last
column. -/
def m44_translation (v : vector3) : matrix_4x4 :=
  !![1, 0, 0, v.x;
     0, 1, 0, v.y;
     0, 0, 1, v.z;
     0, 0, 0, 1]

/-- Modelled from the spec: `m44_transpose` of the matrix library. -/
def m44_transpose (m : matrix_4x4) : matrix_4x4 := Matrix.transpose m

/-- Modelled from the spec: `m44_inverse` of the matrix library, the matrix
inverse, computed as the adjugate scaled by the reciprocal of the
determinant. -/
def m44_inverse (m : matrix_4x4) : matrix_4x4 :=
  (Matrix.det m)⁻¹ • Matrix.adjugate m

/-! ## Data model -/

/-- The `bone` struct.  `parent` is the `bone*` back-reference: the index of
the parent in the owning skeleton, `none` for `NULL`. -/
structure bone where
  id : Int
  name : String
  position : vector3
  rotation : matrix_4x4
  parent : Option Nat

/-- The `skeleton` struct: the bone array and the two matrix arrays. -/
structure skeleton where
  bones : List bone
  transforms : List matrix_4x4
  inv_transforms : List matrix_4x4

/-- The `num_bones` field: the number of entries of the bone array. -/
def skeleton.num_bones (s : skeleton) : Nat := s.bones.length

/-! ## Skeleton store -/

/-- Source `bone_new(id, name)`: zero position, identity rotation, no parent. -/
def bone_new (id : Int) (name : String) : bone :=
  { id := id
    name := name
    position := v3_zero
    rotation := m44_id
    parent := none }

/-- Source `skeleton_new()`: no bones, empty matrix arrays. -/
def skeleton_new : skeleton :=
  { bones := []
    transforms := []
    inv_transforms := [] }

/-- The scan loop of `skeleton_bone_id`: `bs` are the bones from index `i`
on; the result is the index of the first one whose id is `id`. -/
def skeleton_bone_id.scan (id : Int) : List bone → Nat → Option Nat
  | [], _ => none
  | b :: bs, i => if b.id = id then some i else skeleton_bone_id.scan id bs (i + 1)

/-- Source `skeleton_bone_id(s, id)`.  The first component is the returned `bone*`
(`none` for `NULL`); the second lists the arguments of the calls to
`warning("unknown bone id %i", id)` made on the way, which report and
return. -/
def skeleton_bone_id (s : skeleton) (id : Int) : Option Nat × List Int :=
  if id = -1 then (none, [])
  else
    match skeleton_bone_id.scan id s.bones 0 with
    | some i => (some i, [])
    | none => (none, [id])

/-- Source `skeleton_add_bone(s, name, id, parent_id)`: the parent is looked up
before the arrays grow by one entry each. -/
def skeleton_add_bone (s : skeleton) (name : String) (id parent_id : Int) : skeleton :=
  let b := bone_new id name
  let b := { b with parent := (skeleton_bone_id s parent_id).1 }
  { bones := s.bones ++ [b]
    transforms := s.transforms ++ [m44_id]
    inv_transforms := s.inv_transforms ++ [m44_id] }

/-- First loop of `skeleton_copy`: a fresh bone per old bone, with the
position and rotation copied over. -/
def skeleton_copy.fresh (ob : bone) : bone :=
  let nb := bone_new ob.id ob.name
  let nb := { nb with position := ob.position }
  { nb with rotation := ob.rotation }

/-- Second loop of `skeleton_copy`, one iteration: the parent of the new bone
made from `ob`; `new` is the copy under construction (the loop reads only its
ids, which the loop does not write) and `old` the source.  A parent pointer of
`old` that is not one of its bones has no id to look up. -/
def skeleton_copy.link (old new : skeleton) (ob : bone) : Option Nat :=
  match ob.parent with
  | none => none
  | some p =>
    match old.bones[p]? with
    | none => none
    | some pb => (skeleton_bone_id new pb.id).1

/-- Source `skeleton_copy(old)`.  The third loop copies the first `num_bones` entries
of both matrix arrays. -/
def skeleton_copy (old : skeleton) : skeleton :=
  let fresh : skeleton :=
    { bones := old.bones.map skeleton_copy.fresh
      transforms := []
      inv_transforms := [] }
  { bones := List.zipWith (fun nb ob => { nb with parent := skeleton_copy.link old fresh ob })
      fresh.bones old.bones
    transforms := old.transforms.take old.num_bones
    inv_transforms := old.inv_transforms.take old.num_bones }

/-! ## Forward kinematics -/

/-- Source `bone_transform(b)` for the bone at index `b` of the bone sequence
`bones`, which is the memory the parent pointers point into.  `fuel` bounds
the depth of the recursion along parent pointers; `none` when it is exhausted
or when `b` is not a bone of the sequence. -/
def bone_transform (bones : List bone) : Nat → Nat → Option matrix_4x4
  | 0, _ => none
  | fuel + 1, b =>
    match bones[b]? with
    | none => none
    | some bn =>
      match bn.parent with
      | none =>
        let ret := m44_id
        let trans := m44_translation bn.position
        let rot := bn.rotation
        let ret := m44_mul_m44 ret trans
        let ret := m44_mul_m44 ret rot
        some ret
      | some p =>
        match bone_transform bones fuel p with
        | none => none
        | some prev =>
          let ret := m44_id
          let trans := m44_translation bn.position
          let rot := bn.rotation
          let ret := m44_mul_m44 ret prev
          let ret := m44_mul_m44 ret trans
          let ret := m44_mul_m44 ret rot
          some ret

/-- Body of the loop of `skeleton_gen_transforms` at index `i`: `none` when
`bone_transform` does not return or `transforms` has no entry `i`. -/
def skeleton_gen_transforms.body (fuel : Nat) (s : skeleton) (i : Nat) : Option skeleton :=
  match bone_transform s.bones fuel i with
  | none => none
  | some m =>
    if i < s.transforms.length then some { s with transforms := s.transforms.set i m }
    else none

/-- The first `n` iterations of the loop of `skeleton_gen_transforms`, for
the indices `0, ..., n - 1` in this order. -/
def skeleton_gen_transforms.loop (fuel : Nat) (s : skeleton) : Nat → Option skeleton
  | 0 => some s
  | i + 1 =>
    match skeleton_gen_transforms.loop fuel s i with
    | none => none
    | some s1 => skeleton_gen_transforms.body fuel s1 i

/-- Source `skeleton_gen_transforms(s)`: `none` when a call to `bone_transform` does
not return within `fuel` or an array is too short. -/
def skeleton_gen_transforms (fuel : Nat) (s : skeleton) : Option skeleton :=
  skeleton_gen_transforms.loop fuel s s.num_bones

/-- Body of the loop of `skeleton_gen_inv_transforms` at index `i`: the
transform is stored, read back and its inverse stored. -/
def skeleton_gen_inv_transforms.body (fuel : Nat) (s : skeleton) (i : Nat) : Option skeleton :=
  match bone_transform s.bones fuel i with
  | none => none
  | some m =>
    if i < s.transforms.length then
      let s1 := { s with transforms := s.transforms.set i m }
      match s1.transforms[i]? with
      | none => none
      | some t =>
        if i < s1.inv_transforms.length then
          some { s1 with inv_transforms := s1.inv_transforms.set i (m44_inverse t) }
        else none
    else none

/-- The first `n` iterations of the loop of `skeleton_gen_inv_transforms`. -/
def skeleton_gen_inv_transforms.loop (fuel : Nat) (s : skeleton) : Nat → Option skeleton
  | 0 => some s
  | i + 1 =>
    match skeleton_gen_inv_transforms.loop fuel s i with
    | none => none
    | some s1 => skeleton_gen_inv_transforms.body fuel s1 i

/-- Source `skeleton_gen_inv_transforms(s)`, with the same conventions. -/
def skeleton_gen_inv_transforms (fuel : Nat) (s : skeleton) : Option skeleton :=
  skeleton_gen_inv_transforms.loop fuel s s.num_bones


/-! ## Specification vocabulary -/

/-- Local transform of a bone: its translation followed by its rotation. -/
def bone_local (bn : bone) : matrix_4x4 :=
  m44_translation bn.position * bn.rotation

/-- Predicate `ancestor_chain bones c b`: `c` lists the bones on the parent chain of the
bone at index `b`, from its root (a bone without parent) down to that bone
itself. -/
inductive ancestor_chain (bones : List bone) : List bone → Nat → Prop
  | root (b : Nat) (bn : bone) :
      bones[b]? = some bn → bn.parent = none → ancestor_chain bones [bn] b
  | child (c : List bone) (p b : Nat) (bn : bone) :
      ancestor_chain bones c p → bones[b]? = some bn → bn.parent = some p →
      ancestor_chain bones (c ++ [bn]) b

/-! ## Example skeletons -/

/-- Root bone of the example chain. -/
def ex_root : bone :=
  { id := 0, name := "root", position := v3 1 0 0, rotation := m44_id, parent := none }

/-- Middle bone of the example chain, child of the root. -/
def ex_mid : bone :=
  { id := 1, name := "mid", position := v3 0 2 0, rotation := m44_id, parent := some 0 }

/-- Leaf bone of the example chain, child of the middle bone. -/
def ex_leaf : bone :=
  { id := 2, name := "leaf", position := v3 0 0 3, rotation := m44_id, parent := some 1 }

/-- Three-bone chain root, mid, leaf with stale (identity) matrices. -/
def ex_chain : skeleton :=
  { bones := [ex_root, ex_mid, ex_leaf]
    transforms := [m44_id, m44_id, m44_id]
    inv_transforms := [m44_id, m44_id, m44_id] }

/-- Relation `parent_of bones b p`: the bone at index `b` has the parent pointer `p`. -/
def parent_of (bones : List bone) (b p : Nat) : Prop :=
  ∃ bn, bones[b]? = some bn ∧ bn.parent = some p

/-- Every parent pointer points to a bone of the same sequence. -/
def parents_inside (bones : List bone) : Prop :=
  ∀ b p, parent_of bones b p → p < bones.length

/-- The parent graph is acyclic: no bone is its own ancestor. -/
def acyclic (bones : List bone) : Prop :=
  ∀ b, ¬ Relation.TransGen (parent_of bones) b b

/-- Skeletons reachable from `skeleton_new` by `skeleton_add_bone`,
`skeleton_copy` and the two transform generation functions. -/
inductive reachable : skeleton → Prop
  | new : reachable skeleton_new
  | add_bone (s : skeleton) (name : String) (id parent_id : Int) :
      reachable s → reachable (skeleton_add_bone s name id parent_id)
  | copy (s : skeleton) : reachable s → reachable (skeleton_copy s)
  | gen_transforms (fuel : Nat) (s s1 : skeleton) :
      reachable s → skeleton_gen_transforms fuel s = some s1 → reachable s1
  | gen_inv_transforms (fuel : Nat) (s s1 : skeleton) :
      reachable s → skeleton_gen_inv_transforms fuel s = some s1 → reachable s1

/-- A skeleton holding a bone whose id is the sentinel value `-1`. -/
def ex_sentinel : skeleton :=
  { bones := [{ id := -1, name := "odd", position := v3_zero, rotation := m44_id, parent := none },
      ex_mid]
    transforms := [m44_id, m44_id]
    inv_transforms := [m44_id, m44_id] }

/-- Skeletons built from `skeleton_new` by `skeleton_add_bone` calls alone,
with arbitrary arguments. -/
inductive built : skeleton → Prop
  | new : built skeleton_new
  | add_bone (s : skeleton) (name : String) (id parent_id : Int) :
      built s → built (skeleton_add_bone s name id parent_id)

/-- Every parent pointer points to a bone at a strictly smaller index. -/
def parents_earlier (bones : List bone) : Prop :=
  ∀ b p, parent_of bones b p → p < b

/-! ## C library scanning (external to `skeleton.c`)

The loader reads its input with `sscanf` and `strstr`.  These are modelled on
the characters of a line, as the GNU C library performs them where `int` has
32 bits and `long` 64: a `%i` field is converted to a `long`, held to its
range, and its low 32 bits are stored; a `%f` field is a decimal or a
hexadecimal number, an infinity or a NaN.  A finite number is kept exactly,
as for the rest of the arithmetic, unless it is beyond the range of `float`,
where the library delivers an infinity. -/

/-- Library `isspace` in the C locale. -/
def isspace (c : Char) : Bool :=
  c == ' ' || c == '\t' || c == '\n' || c == '\x0b' || c == '\x0c' || c == '\r'

/-- Library `strstr(line, needle) != NULL`: `needle` occurs in `line`. -/
def strstr : List Char → List Char → Bool
  | [], needle => needle.isEmpty
  | c :: cs, needle => needle.isPrefixOf (c :: cs) || strstr cs needle

/-- White space skipped in front of a conversion. -/
def skip_space : List Char → List Char
  | [] => []
  | c :: cs => if isspace c then skip_space cs else c :: cs

/-- Value of a character as a digit, in bases up to sixteen. -/
def digit_value (c : Char) : Option Nat :=
  if '0' ≤ c ∧ c ≤ '9' then some (c.toNat - 48)
  else if 'a' ≤ c ∧ c ≤ 'f' then some (c.toNat - 87)
  else if 'A' ≤ c ∧ c ≤ 'F' then some (c.toNat - 55)
  else none

/-- The longest run of digits of the given base: the value accumulated onto
`acc`, the number of digits read added to `n`, and the rest of the input. -/
def scan_digits (base : Nat) : List Char → Nat → Nat → Nat × Nat × List Char
  | [], acc, n => (acc, n, [])
  | c :: cs, acc, n =>
    match digit_value c with
    | some d => if d < base then scan_digits base cs (acc * base + d) (n + 1) else (acc, n, c :: cs)
    | none => (acc, n, c :: cs)

/-- An optional sign: whether it is a minus, and the rest of the input. -/
def scan_sign : List Char → Bool × List Char
  | '-' :: cs => (true, cs)
  | '+' :: cs => (false, cs)
  | cs => (false, cs)

/-- The digits of a `%i` field after the sign: hexadecimal after `0x` (the
value is 0 when no digit follows), octal after `0`, decimal otherwise. -/
def scan_unsigned (cs : List Char) : Option (Nat × List Char) :=
  match cs with
  | '0' :: x :: rest =>
    if x = 'x' ∨ x = 'X' then
      match scan_digits 16 rest 0 0 with
      | (v, _, r) => some (v, r)
    else
      match scan_digits 8 (x :: rest) 0 0 with
      | (v, _, r) => some (v, r)
  | _ =>
    match scan_digits 10 cs 0 0 with
    | (v, n, r) => if n = 0 then none else some (v, r)

/-- The `long` that the library converts the digits of a `%i` field to: the
signed value, held to the range of 64 bits. -/
def to_long (negative : Bool) (v : Nat) : Int :=
  if negative then
    if 9223372036854775808 ≤ v then -9223372036854775808 else -(v : Int)
  else
    if 9223372036854775808 ≤ v then 9223372036854775807 else (v : Int)

/-- The `int` stored for a `long`: its low 32 bits, read as a signed number. -/
def to_int (n : Int) : Int :=
  (n + 2147483648) % 4294967296 - 2147483648

/-- A `%i` conversion into an `int`: the value stored and the rest of the
input, `none` on a matching failure. -/
def scan_int (cs : List Char) : Option (Int × List Char) :=
  match scan_sign (skip_space cs) with
  | (neg, cs1) =>
    match scan_unsigned cs1 with
    | none => none
    | some (v, r) => some (to_int (to_long neg v), r)

/-- At most `width` characters up to the next white space. -/
def take_token : Nat → List Char → List Char × List Char
  | 0, cs => ([], cs)
  | _ + 1, [] => ([], [])
  | w + 1, c :: cs =>
    if isspace c then ([], c :: cs)
    else match take_token w cs with
      | (tok, r) => (c :: tok, r)

/-- A `%1024s` conversion (for `width = 1024`): a non-empty white-space
delimited token. -/
def scan_str (width : Nat) (cs : List Char) : Option (String × List Char) :=
  match take_token width (skip_space cs) with
  | ([], _) => none
  | (tok, r) => some (String.mk tok, r)

/-- A finite number as `%f` reads it: sign, digits, and a power of ten
(decimal notation) or of two (hexadecimal notation). -/
structure numeral where
  negative : Bool
  digits : Nat
  base : Nat
  exponent : Int
deriving DecidableEq

/-- The exponent of a `%f` field after its marker `e` or `p`: an optional sign
and decimal digits.  Without digits the sign is still read and the exponent
counts as 0. -/
def scan_exponent (cs : List Char) : Int × List Char :=
  match scan_sign cs with
  | (neg, r1) =>
    match scan_digits 10 r1 0 0 with
    | (v, n, r2) => if n = 0 then (0, r1) else (if neg then -(v : Int) else (v : Int), r2)

/-- The digits of a `%f` field in the given notation (`base` 10 with exponent
marker `e`, powers of ten; `base` 16 with marker `p`, powers of two): digits,
an optional point with more digits, and, after at least one digit, an
optional exponent.  The first component tells whether a digit was read, the
second whether the point was. -/
def scan_mantissa (base : Nat) (marker : Char) (neg : Bool) (cs : List Char) :
    Bool × Bool × numeral × List Char :=
  match scan_digits base cs 0 0 with
  | (ip, n1, r1) =>
    match (match r1 with
           | '.' :: t =>
             match scan_digits base t ip 0 with
             | (m, n2, r2) => (true, m, n2, r2)
           | _ => (false, ip, 0, r1)) with
    | (dot, m, n2, r2) =>
      if n1 + n2 = 0 then
        (false, dot, { negative := neg, digits := 0, base := 10, exponent := 0 }, r2)
      else
        match (match r2 with
               | c :: t => if c.toLower = marker then scan_exponent t else (0, r2)
               | [] => (0, [])) with
        | (e, r3) =>
          (true, dot,
            { negative := neg, digits := m, base := if base = 16 then 2 else 10,
              exponent := if base = 16 then e - 4 * (n2 : Int) else e - (n2 : Int) }, r3)

/-- Whether the input starts with the given lower-case word, in either case;
the rest of the input after it. -/
def scan_word : List Char → List Char → Option (List Char)
  | [], cs => some cs
  | _ :: _, [] => none
  | w :: ws, c :: cs => if c.toLower = w then scan_word ws cs else none

/-- A `%f` conversion: the number read, `none` for an infinity or a NaN, and
the rest of the input; the outer `none` on a matching failure. -/
def scan_float (cs : List Char) : Option (Option numeral × List Char) :=
  match scan_sign (skip_space cs) with
  | (neg, cs1) =>
    match cs1 with
    | [] => none
    | c :: rest =>
      if c.toLower = 'n' then
        match scan_word ['a', 'n'] rest with
        | none => none
        | some r => some (none, r)
      else if c.toLower = 'i' then
        match scan_word ['n', 'f'] rest with
        | none => none
        | some r =>
          match r with
          | c1 :: r1 =>
            if c1.toLower = 'i' then
              match scan_word ['n', 'i', 't', 'y'] r1 with
              | none => none
              | some r2 => some (none, r2)
            else some (none, r)
          | [] => some (none, [])
      else
        match (match cs1 with
               | '0' :: x :: t => if x.toLower = 'x' then some t else none
               | _ => none) with
        | some t =>
          match scan_mantissa 16 'p' neg t with
          | (digit, dot, d, r) => if digit ∨ dot then some (some d, r) else none
        | none =>
          match scan_mantissa 10 'e' neg cs1 with
          | (digit, _, d, r) => if digit then some (some d, r) else none

/-- Format `"version %i"`: the integer when `sscanf` returns more than 0. -/
def sscanf_version (line : List Char) : Option Int :=
  if "version".toList.isPrefixOf line then
    match scan_int (line.drop 7) with
    | none => none
    | some (version, _) => some version
  else none

/-- Format `"%i %1024s %i"`: the three values when `sscanf` returns 3. -/
def sscanf_node (line : List Char) : Option (Int × String × Int) :=
  match scan_int line with
  | none => none
  | some (id, r1) =>
    match scan_str 1024 r1 with
    | none => none
    | some (name, r2) =>
      match scan_int r2 with
      | none => none
      | some (parent_id, _) => some (id, name, parent_id)

/-- The given number of consecutive `%f` conversions. -/
def scan_floats : Nat → List Char → Option (List (Option numeral))
  | 0, _ => some []
  | k + 1, cs =>
    match scan_float cs with
    | none => none
    | some (d, r) =>
      match scan_floats k r with
      | none => none
      | some ds => some (d :: ds)

/-- The rational value of a numeral. -/
def numeral.value (d : numeral) : ℚ :=
  (if d.negative then -1 else 1) * (d.digits : ℚ) * (d.base : ℚ) ^ d.exponent

/-- The least magnitude that `float` rounds to an infinity: halfway from its
largest finite value, `2 ^ 128 - 2 ^ 104`, to `2 ^ 128`. -/
def float_overflow : ℚ := 340282356779733661637539395458142568448

/-- The `float` stored for what a `%f` conversion read: the value, `none` for
an infinity or a NaN, be it spelled or the result of overflow. -/
def numeral.float : Option numeral → Option ℚ
  | none => none
  | some d => if |d.value| < float_overflow then some d.value else none

/-- The values that a pose line assigns to `id`, `x`, `y`, `z`, `rx`, `ry` and
`rz`; for the six `float` variables `none` stands for an infinity or a NaN. -/
structure pose where
  id : Int
  x : Option ℚ
  y : Option ℚ
  z : Option ℚ
  rx : Option ℚ
  ry : Option ℚ
  rz : Option ℚ

/-- The values of a pose line whose six numbers are finite. -/
def pose.finite (id : Int) (x y z rx ry rz : ℚ) : pose :=
  { id := id, x := some x, y := some y, z := some z,
    rx := some rx, ry := some ry, rz := some rz }

/-- Format `"%i %f %f %f %f %f %f"`: the seven values when `sscanf` returns
7. -/
def sscanf_pose (line : List Char) : Option pose :=
  match scan_int line with
  | none => none
  | some (id, r) =>
    match scan_floats 6 r with
    | some [x, y, z, rx, ry, rz] =>
      some { id := id, x := numeral.float x, y := numeral.float y, z := numeral.float z,
             rx := numeral.float rx, ry := numeral.float ry, rz := numeral.float rz }
    | _ => none

/-! ## Rig file loader -/

/-- Modelled from the spec: `m44_rotation_euler` of the matrix library,
rotation-from-Euler-angles; its values are not rational, so the loader takes
the function as a parameter of this type. -/
abbrev rotation_euler : Type := ℚ → ℚ → ℚ → matrix_4x4

/-- Stand-in for `m44_rotation_euler` in the examples, all of whose pose lines
have zero angles, where the rotation is the identity. -/
def ex_euler : rotation_euler := fun _ _ _ => m44_id

/-- Parser state `state_load_empty`. -/
def state_load_empty : Int := 0

/-- Parser state `state_load_nodes`. -/
def state_load_nodes : Int := 1

/-- Parser state `state_load_skeleton`. -/
def state_load_skeleton : Int := 2

/-- Ways in which `skl_load_file` ends without returning a skeleton: the two
calls of `error`, and the write through the null pointer that
`skeleton_bone_id` returned. -/
inductive load_failure where
  | could_not_load_file
  | unknown_version (version : Int)
  | null_dereference
deriving DecidableEq

/-- The course of the load up to some point: it goes on with a value, it ends
with a `load_failure`, or it stores an infinity or a NaN in a bone, which
exact arithmetic does not have, and is not followed further. -/
inductive outcome (α : Type) where
  | ok (a : α)
  | error (e : load_failure)
  | not_finite

/-- Modelled from the spec: `error` of `error.h`, the fatal-error reporter,
which is not part of `skeleton.c`; it aborts the load, so that nothing is
returned. -/
abbrev error {α : Type} (e : load_failure) : outcome α := .error e

/-- The matrix `handedflip` of `skl_load_file`. -/
def handedflip : matrix_4x4 :=
  !![1, 0, 0, 0;
     0, 0, 1, 0;
     0, 1, 0, 0;
     0, 0, 0, 1]

/-- The rotation that `skl_load_file` stores for a pose line, from the Euler
rotation of its angles: flipped on both sides, then transposed. -/
def skl_load_file.convert (rotation : matrix_4x4) : matrix_4x4 :=
  let rotation := m44_mul_m44 handedflip rotation
  let rotation := m44_mul_m44 rotation handedflip
  let rotation := m44_transpose rotation
  rotation

/-- The writes `b->position = v3(x, z, y)` and `b->rotation = rotation` of
`skl_load_file` through the bone pointer `b`. -/
def skl_load_file.pose (euler : rotation_euler) (s : skeleton) (b : Nat)
    (x y z rx ry rz : ℚ) : skeleton :=
  let write (bn : bone) : bone :=
    { bn with position := v3 x z y, rotation := skl_load_file.convert (euler rx ry rz) }
  { s with bones := s.bones.modify write b }

/-- Branch `state == state_load_empty` of the loop body. -/
def skl_load_file.in_empty (state : Int) (s : skeleton) (line : List Char) :
    outcome (Int × skeleton) :=
  match sscanf_version line with
  | some version =>
    if version ≠ 1 then error (.unknown_version version)
    else
      let state := if strstr line "nodes".toList then state_load_nodes else state
      let state := if strstr line "skeleton".toList then state_load_skeleton else state
      .ok (state, s)
  | none =>
    let state := if strstr line "nodes".toList then state_load_nodes else state
    let state := if strstr line "skeleton".toList then state_load_skeleton else state
    .ok (state, s)

/-- Branch `state == state_load_nodes` of the loop body. -/
def skl_load_file.in_nodes (state : Int) (s : skeleton) (line : List Char) :
    outcome (Int × skeleton) :=
  let s :=
    match sscanf_node line with
    | some (id, name, parent_id) => skeleton_add_bone s name id parent_id
    | none => s
  let state := if strstr line "end".toList then state_load_empty else state
  .ok (state, s)

/-- Branch `state == state_load_skeleton` of the loop body.  The result of
`skeleton_bone_id` is written through without a test. -/
def skl_load_file.in_skeleton (euler : rotation_euler) (state : Int) (s : skeleton)
    (line : List Char) : outcome (Int × skeleton) :=
  match sscanf_pose line with
  | some p =>
    match (skeleton_bone_id s p.id).1 with
    | none => .error .null_dereference
    | some b =>
      match p.x, p.y, p.z, p.rx, p.ry, p.rz with
      | some x, some y, some z, some rx, some ry, some rz =>
        let s := skl_load_file.pose euler s b x y z rx ry rz
        let state := if strstr line "end".toList then state_load_empty else state
        .ok (state, s)
      | _, _, _, _, _, _ => .not_finite
  | none =>
    let state := if strstr line "end".toList then state_load_empty else state
    .ok (state, s)

/-- The body of the `while` loop of `skl_load_file` for one line. -/
def skl_load_file.line (euler : rotation_euler) (state : Int) (s : skeleton)
    (line : List Char) : outcome (Int × skeleton) :=
  if state = state_load_empty then skl_load_file.in_empty state s line
  else if state = state_load_nodes then skl_load_file.in_nodes state s line
  else if state = state_load_skeleton then skl_load_file.in_skeleton euler state s line
  else .ok (state, s)

/-- The `while` loop of `skl_load_file` over the lines that `SDL_RWreadline`
delivers. -/
def skl_load_file.lines (euler : rotation_euler) :
    Int → skeleton → List String → outcome (Int × skeleton)
  | state, s, [] => .ok (state, s)
  | state, s, line :: rest =>
    match skl_load_file.line euler state s line.toList with
    | .error e => .error e
    | .not_finite => .not_finite
    | .ok (state1, s1) => skl_load_file.lines euler state1 s1 rest

/-- Source `skl_load_file(filename)`.  Modelled from the spec: the file and
`SDL_RWreadline` are the line-based readable file handle, here the list of
its lines, `none` when the file cannot be opened.  The outer `none` stands for
a final `skeleton_gen_inv_transforms` that does not return within `fuel`. -/
def skl_load_file (euler : rotation_euler) (fuel : Nat) (file : Option (List String)) :
    Option (outcome skeleton) :=
  match file with
  | none => some (error .could_not_load_file)
  | some lines =>
    match skl_load_file.lines euler state_load_empty skeleton_new lines with
    | .error e => some (.error e)
    | .not_finite => some .not_finite
    | .ok (_, s) =>
      match skeleton_gen_inv_transforms fuel s with
      | none => none
      | some s1 => some (.ok s1)

/-- The rig file of the specification's parsing example. -/
def ex_file : List String :=
  ["version 1", "nodes", "0 root -1", "1 child 0", "end",
   "skeleton", "0 0 0 0 0 0 0", "1 1 2 3 0 0 0", "end"]

/-- A rig file in which a bone name contains the text `end`. -/
def ex_file_tendon : List String :=
  ["version 1", "nodes", "0 root -1", "1 tendon 0", "2 toe 1", "end", "skeleton", "end"]

/-- A rig file that declares the id 0 twice and the id -1 once. -/
def ex_file_ids : List String :=
  ["version 1", "nodes", "0 hip -1", "0 knee 0", "-1 toe 0", "end"]

/-- A rig file whose pose line names the id 5, which no bone has. -/
def ex_file_unknown : List String :=
  ["version 1", "nodes", "0 root -1", "end", "skeleton", "5 0 0 0 0 0 0", "end"]

/-- A rig file that declares a bone with the id -1 and gives it a pose line. -/
def ex_file_sentinel : List String :=
  ["version 1", "nodes", "-1 root -1", "end", "skeleton", "-1 0 0 0 0 0 0", "end"]

/-- A rig file whose version declaration has the number `2 ^ 32 + 1`. -/
def ex_file_wrapped : List String :=
  ["version 4294967297", "nodes", "0 root -1", "end"]

/-- A rig file whose declared ids are `2 ^ 32 - 1` and `2 ^ 31`. -/
def ex_file_wide : List String :=
  ["version 1", "nodes", "4294967295 ghost -1", "2147483648 big -1", "end"]

/-- A rig file whose pose line gives an infinite `x`. -/
def ex_file_infinite : List String :=
  ["version 1", "nodes", "0 root -1", "end", "skeleton", "0 inf 0 0 0 0 0", "end"]

/-- The number of recursive calls that `bone_transform(b)` makes before it
returns, following the recursion of `bone_transform`: none for a bone without
parent, one more than for the parent otherwise. -/
def bone_transform.calls (bones : List bone) : Nat → Nat → Option Nat
  | 0, _ => none
  | fuel + 1, b =>
    match bones[b]? with
    | none => none
    | some bn =>
      match bn.parent with
      | none => some 0
      | some p =>
        match bone_transform.calls bones fuel p with
        | none => none
        | some k => some (k + 1)

/-- Every parent pointer points to the first bone that has the parent's id,
and that id is not `-1`: looking the parent up by its id finds it again. -/
def parents_first (bones : List bone) : Prop :=
  ∀ b p, parent_of bones b p →
    ∃ pb, bones[p]? = some pb ∧ pb.id ≠ -1 ∧
      ∀ j b1, j < p → bones[j]? = some b1 → b1.id ≠ pb.id

/-- The skeleton that the loop of `skl_load_file` builds from `ex_file`. -/
def ex_loaded (euler : rotation_euler) : skeleton :=
  skl_load_file.pose euler
    (skl_load_file.pose euler
      (skeleton_add_bone (skeleton_add_bone skeleton_new "root" 0 (-1)) "child" 1 0)
      0 0 0 0 0 0 0)
    1 1 2 3 0 0 0

/-- The declarations `(id, name, parent_id)` on the lines that the loader
reads in the NODES state, in input order, with the parser state followed as
the loop of `skl_load_file` sets it; `state` is the state before the first
line. -/
def declared_nodes : Int → List String → List (Int × String × Int)
  | _, [] => []
  | state, line :: rest =>
    if state = state_load_empty then
      let state := if strstr line.toList "nodes".toList then state_load_nodes else state
      let state := if strstr line.toList "skeleton".toList then state_load_skeleton else state
      declared_nodes state rest
    else if state = state_load_nodes then
      (sscanf_node line.toList).toList ++
        declared_nodes (if strstr line.toList "end".toList then state_load_empty else state) rest
    else if state = state_load_skeleton then
      declared_nodes (if strstr line.toList "end".toList then state_load_empty else state) rest
    else declared_nodes state rest

/-- The skeleton after `skeleton_add_bone` for each declaration in turn. -/
def add_declared (s : skeleton) (decls : List (Int × String × Int)) : skeleton :=
  decls.foldl (fun s d => skeleton_add_bone s d.2.1 d.1 d.2.2) s

/-- The id, name and parent pointer of a bone: what a pose line leaves
alone. -/
def bone.link (bn : bone) : Int × String × Option Nat :=
  (bn.id, bn.name, bn.parent)

/-- The parent pointer `parent` is the first of the declarations before the
`k`-th whose id is `pid`, and none when `pid` is `-1` or there is no such
declaration. -/
def first_earlier (decls : List (Int × String × Int)) (k : Nat) (pid : Int)
    (parent : Option Nat) : Prop :=
  (pid = -1 → parent = none) ∧
  (∀ j, parent = some j →
    j < k ∧ (∃ dj, decls[j]? = some dj ∧ dj.1 = pid) ∧
    ∀ (i : Nat) (di : Int × String × Int), i < j → decls[i]? = some di → di.1 ≠ pid) ∧
  (parent = none →
    pid = -1 ∨ ∀ (i : Nat) (di : Int × String × Int), i < k → decls[i]? = some di → di.1 ≠ pid)

/-! ## Properties of `bone_transform` -/

theorem bone_transform_succ_root (bones : List bone) (fuel b : Nat) (bn : bone)
    (hb : bones[b]? = some bn) (hp : bn.parent = none) :
    bone_transform bones (fuel + 1) b = some (m44_translation bn.position * bn.rotation) := by
  simp [bone_transform, hb, hp, m44_mul_m44, m44_id]

theorem bone_transform_succ_child (bones : List bone) (fuel b p : Nat) (bn : bone)
    (hb : bones[b]? = some bn) (hp : bn.parent = some p) :
    bone_transform bones (fuel + 1) b =
      (bone_transform bones fuel p).map
        (fun prev => prev * m44_translation bn.position * bn.rotation) := by
  simp only [bone_transform, hb, hp]
  cases bone_transform bones fuel p <;> simp [m44_mul_m44, m44_id]

theorem bone_transform_mono (bones : List bone) (fuel : Nat) :
    ∀ (b : Nat) (m : matrix_4x4), bone_transform bones fuel b = some m →
      ∀ fuel2, fuel ≤ fuel2 → bone_transform bones fuel2 b = some m := by
  induction fuel with
  | zero => intro b m h; simp [bone_transform] at h
  | succ k ih =>
    intro b m h fuel2 hle
    obtain ⟨j, rfl⟩ : ∃ j, fuel2 = j + 1 := ⟨fuel2 - 1, by omega⟩
    cases hb : bones[b]? with
    | none => simp [bone_transform, hb] at h
    | some bn =>
      cases hp : bn.parent with
      | none =>
        rw [bone_transform_succ_root bones _ b bn hb hp] at h ⊢
        exact h
      | some p =>
        rw [bone_transform_succ_child bones _ b p bn hb hp] at h ⊢
        cases hq : bone_transform bones k p with
        | none => simp [hq] at h
        | some prev =>
          rw [ih p prev hq j (by omega)]
          rw [hq] at h
          exact h

/-- C1: `bone_transform` satisfies its recursive definition.  For a bone
without parent the result is `translation(position) * rotation`; for a bone
with parent `p` it is the parent's result times the translation times the
rotation, multiplied left to right; and the result does not depend on the
depth bound once the recursion fits into it. -/
theorem bone_transform_recursive_definition (bones : List bone) (b : Nat) (bn : bone)
    (hb : bones[b]? = some bn) :
    (bn.parent = none → ∀ fuel,
      bone_transform bones (fuel + 1) b = some (m44_translation bn.position * bn.rotation)) ∧
    (∀ p, bn.parent = some p → ∀ fuel,
      bone_transform bones (fuel + 1) b =
        (bone_transform bones fuel p).map
          (fun prev => prev * m44_translation bn.position * bn.rotation)) ∧
    (∀ p, bn.parent = some p → ∀ fuel prev, bone_transform bones fuel p = some prev →
      ∀ fuel2, fuel + 1 ≤ fuel2 →
        bone_transform bones fuel2 b = some (prev * m44_translation bn.position * bn.rotation)) ∧
    (∀ fuel m, bone_transform bones fuel b = some m →
      ∀ fuel2, fuel ≤ fuel2 → bone_transform bones fuel2 b = some m) := by
  refine ⟨fun hp fuel => bone_transform_succ_root bones fuel b bn hb hp,
    fun p hp fuel => bone_transform_succ_child bones fuel b p bn hb hp, ?_,
    fun fuel m h => bone_transform_mono bones fuel b m h⟩
  intro p hp fuel prev hprev fuel2 hle
  apply bone_transform_mono bones (fuel + 1) b _ _ fuel2 hle
  rw [bone_transform_succ_child bones fuel b p bn hb hp, hprev]
  rfl

theorem bone_transform_recursive_definition_witness :
    bone_transform ex_chain.bones 1 0 = some (m44_translation ex_root.position * ex_root.rotation) ∧
    bone_transform ex_chain.bones 2 1 =
      (bone_transform ex_chain.bones 1 0).map
        (fun prev => prev * m44_translation ex_mid.position * ex_mid.rotation) :=
  ⟨(bone_transform_recursive_definition ex_chain.bones 0 ex_root rfl).1 rfl 0,
   (bone_transform_recursive_definition ex_chain.bones 1 ex_mid rfl).2.1 0 rfl 1⟩

/-! ## Closed form along a parent chain -/

theorem ancestor_chain_length_pos (bones : List bone) (c : List bone) (b : Nat)
    (h : ancestor_chain bones c b) : 0 < c.length := by
  cases h <;> simp

theorem bone_transform_chain (bones : List bone) (c : List bone) (b : Nat)
    (h : ancestor_chain bones c b) :
    ∀ fuel, c.length ≤ fuel → bone_transform bones fuel b = some (c.map bone_local).prod := by
  induction h with
  | root b bn hb hp =>
    intro fuel hf
    obtain ⟨j, rfl⟩ : ∃ j, fuel = j + 1 := ⟨fuel - 1, by simp at hf; omega⟩
    rw [bone_transform_succ_root bones j b bn hb hp]
    simp [bone_local]
  | child c p b bn hc hb hp ih =>
    intro fuel hf
    simp only [List.length_append, List.length_singleton] at hf
    obtain ⟨j, rfl⟩ : ∃ j, fuel = j + 1 := ⟨fuel - 1, by omega⟩
    rw [bone_transform_succ_child bones j b p bn hb hp, ih j (by omega)]
    simp [bone_local, mul_assoc]

/-- C2: closed form of the world transform along a chain.  When `c` lists the
bones `b_0` (root), ..., `b_k = b` on the parent chain of `b`, the transform
of `b` is the ordered product of the local transforms
`translation(b_j.position) * b_j.rotation`, for every depth bound that fits
the chain; for a three-bone chain root, mid, leaf this is
`T_root * R_root * T_mid * R_mid * T_leaf * R_leaf`. -/
theorem bone_transform_closed_form (bones : List bone) :
    (∀ (c : List bone) (b : Nat), ancestor_chain bones c b →
      ∀ fuel, c.length ≤ fuel →
        bone_transform bones fuel b =
          some (c.map (fun bn => m44_translation bn.position * bn.rotation)).prod) ∧
    (∀ (r m l : Nat) (root mid leaf : bone),
      bones[r]? = some root → root.parent = none →
      bones[m]? = some mid → mid.parent = some r →
      bones[l]? = some leaf → leaf.parent = some m →
      ∀ fuel, 3 ≤ fuel →
        bone_transform bones fuel l =
          some (m44_translation root.position * root.rotation *
            m44_translation mid.position * mid.rotation *
            m44_translation leaf.position * leaf.rotation)) := by
  refine ⟨fun c b h fuel hf => bone_transform_chain bones c b h fuel hf, ?_⟩
  intro r m l root mid leaf hr hrp hm hmp hl hlp fuel hf
  have hc : ancestor_chain bones ([root] ++ [mid] ++ [leaf]) l :=
    .child _ m l leaf (.child _ r m mid (.root r root hr hrp) hm hmp) hl hlp
  rw [bone_transform_chain bones _ l hc fuel (by simpa using hf)]
  simp [bone_local, mul_assoc]

theorem bone_transform_closed_form_witness :
    bone_transform ex_chain.bones 3 2 =
      some (m44_translation ex_root.position * ex_root.rotation *
        m44_translation ex_mid.position * ex_mid.rotation *
        m44_translation ex_leaf.position * ex_leaf.rotation) ∧
    bone_transform ex_chain.bones 5 2 =
      some ([ex_root, ex_mid, ex_leaf].map
        (fun bn => m44_translation bn.position * bn.rotation)).prod :=
  ⟨(bone_transform_closed_form ex_chain.bones).2 0 1 2 ex_root ex_mid ex_leaf
      rfl rfl rfl rfl rfl rfl 3 (Nat.le_refl 3),
   (bone_transform_closed_form ex_chain.bones).1 ([ex_root] ++ [ex_mid] ++ [ex_leaf]) 2
      (.child _ 1 2 ex_leaf (.child _ 0 1 ex_mid (.root 0 ex_root rfl rfl) rfl rfl) rfl rfl)
      5 (by decide)⟩

/-! ## Termination of `bone_transform` on acyclic parent graphs -/

theorem bone_transform_stuck_path (bones : List bone) (hin : parents_inside bones) :
    ∀ (k b : Nat), b < bones.length → bone_transform bones k b = none →
      ∃ f : Nat → Nat, f 0 = b ∧ (∀ j, j < k → parent_of bones (f j) (f (j + 1))) ∧
        ∀ j, j ≤ k → f j < bones.length := by
  intro k
  induction k with
  | zero =>
    intro b hb _
    exact ⟨fun _ => b, rfl, fun j hj => absurd hj (Nat.not_lt_zero j), fun _ _ => hb⟩
  | succ k ih =>
    intro b hb hnone
    obtain ⟨bn, hbn⟩ : ∃ bn, bones[b]? = some bn := ⟨bones[b], List.getElem?_eq_getElem hb⟩
    cases hp : bn.parent with
    | none => rw [bone_transform_succ_root bones k b bn hbn hp] at hnone; cases hnone
    | some p =>
      rw [bone_transform_succ_child bones k b p bn hbn hp] at hnone
      have hpn : bone_transform bones k p = none := by
        cases hq : bone_transform bones k p with
        | none => rfl
        | some m => rw [hq] at hnone; cases hnone
      have hpar : parent_of bones b p := ⟨bn, hbn, hp⟩
      obtain ⟨g, hg0, hgs, hgl⟩ := ih p (hin b p hpar) hpn
      refine ⟨fun j => match j with | 0 => b | i + 1 => g i, rfl, ?_, ?_⟩
      · intro j hj
        cases j with
        | zero => simpa [hg0] using hpar
        | succ i => exact hgs i (by omega)
      · intro j hj
        cases j with
        | zero => exact hb
        | succ i => exact hgl i (by omega)

theorem parent_path_transGen (bones : List bone) (f : Nat → Nat) (k : Nat)
    (hs : ∀ j, j < k → parent_of bones (f j) (f (j + 1))) (i : Nat) :
    ∀ j, i < j → j ≤ k → Relation.TransGen (parent_of bones) (f i) (f j) := by
  intro j
  induction j with
  | zero => intro h; omega
  | succ j ih =>
    intro hij hjk
    rcases Nat.lt_or_ge i j with h | h
    · exact Relation.TransGen.tail (ih h (by omega)) (hs j (by omega))
    · have : i = j := by omega
      subst this
      exact Relation.TransGen.single (hs i (by omega))

theorem bone_transform_terminates (bones : List bone) (hin : parents_inside bones)
    (hac : acyclic bones) (b : Nat) (hb : b < bones.length) :
    ∀ fuel, bones.length ≤ fuel → bone_transform bones fuel b ≠ none := by
  have key : bone_transform bones bones.length b ≠ none := by
    intro hnone
    obtain ⟨f, _, hs, hl⟩ := bone_transform_stuck_path bones hin bones.length b hb hnone
    let g : Fin (bones.length + 1) → Fin bones.length :=
      fun x => ⟨f x.val, hl x.val (by omega)⟩
    obtain ⟨x, y, hxy, hg⟩ := Fintype.exists_ne_map_eq_of_card_lt g (by simp)
    have hfe : f x.val = f y.val := congrArg Fin.val hg
    have hne : x.val ≠ y.val := fun h => hxy (Fin.ext h)
    rcases Nat.lt_or_gt_of_ne hne with h | h
    · have := parent_path_transGen bones f bones.length hs x.val y.val h (by omega)
      rw [hfe] at this
      exact hac _ this
    · have := parent_path_transGen bones f bones.length hs y.val x.val h (by omega)
      rw [hfe] at this
      exact hac _ this
  intro fuel hf hnone
  cases hq : bone_transform bones bones.length b with
  | none => exact key hq
  | some m => rw [bone_transform_mono bones _ b m hq fuel hf] at hnone; cases hnone

/-! ## Matrix library facts -/

theorem m44_translation_det (v : vector3) : Matrix.det (m44_translation v) = 1 := by
  simp [m44_translation, Matrix.det_succ_row_zero, Fin.sum_univ_succ]

theorem m44_translation_isUnit (v : vector3) : IsUnit (m44_translation v) := by
  rw [Matrix.isUnit_iff_isUnit_det, m44_translation_det]
  exact isUnit_one

theorem m44_inverse_eq_inv (m : matrix_4x4) : m44_inverse m = m⁻¹ := by
  rw [m44_inverse, Matrix.inv_def, Ring.inverse_eq_inv']

theorem m44_inverse_mul_cancel (m : matrix_4x4) (h : IsUnit m) :
    m44_mul_m44 m (m44_inverse m) = m44_id ∧ m44_mul_m44 (m44_inverse m) m = m44_id := by
  rw [Matrix.isUnit_iff_isUnit_det] at h
  rw [m44_inverse_eq_inv]
  exact ⟨Matrix.mul_nonsing_inv m h, Matrix.nonsing_inv_mul m h⟩

theorem bone_transform_isUnit (bones : List bone)
    (hrot : ∀ bn, bn ∈ bones → IsUnit bn.rotation) (fuel : Nat) :
    ∀ (b : Nat) (m : matrix_4x4), bone_transform bones fuel b = some m → IsUnit m := by
  induction fuel with
  | zero => intro b m h; simp [bone_transform] at h
  | succ k ih =>
    intro b m h
    cases hb : bones[b]? with
    | none => simp [bone_transform, hb] at h
    | some bn =>
      have hmem : bn ∈ bones := List.getElem?_mem hb
      cases hp : bn.parent with
      | none =>
        rw [bone_transform_succ_root bones k b bn hb hp] at h
        cases h
        exact (m44_translation_isUnit _).mul (hrot bn hmem)
      | some p =>
        rw [bone_transform_succ_child bones k b p bn hb hp] at h
        cases hq : bone_transform bones k p with
        | none => rw [hq] at h; cases h
        | some prev =>
          rw [hq] at h
          cases h
          exact ((ih p prev hq).mul (m44_translation_isUnit _)).mul (hrot bn hmem)

/-! ## The generation loops -/

theorem gen_transforms_body_spec (fuel : Nat) (s s1 : skeleton) (i : Nat)
    (h : skeleton_gen_transforms.body fuel s i = some s1) :
    ∃ m, bone_transform s.bones fuel i = some m ∧ i < s.transforms.length ∧
      s1 = { s with transforms := s.transforms.set i m } := by
  unfold skeleton_gen_transforms.body at h
  cases hq : bone_transform s.bones fuel i with
  | none => rw [hq] at h; cases h
  | some m =>
    rw [hq] at h
    by_cases hi : i < s.transforms.length
    · simp only [hi, if_true] at h
      exact ⟨m, rfl, hi, (Option.some.inj h).symm⟩
    · simp [hi] at h

theorem gen_transforms_loop_spec (fuel : Nat) (s : skeleton) :
    ∀ (k : Nat) (s1 : skeleton), skeleton_gen_transforms.loop fuel s k = some s1 →
      s1.bones = s.bones ∧ s1.inv_transforms = s.inv_transforms ∧
      s1.transforms.length = s.transforms.length ∧ k ≤ s.transforms.length ∧
      (∀ i, i < k → ∃ m, bone_transform s.bones fuel i = some m ∧ s1.transforms[i]? = some m) ∧
      (∀ i, k ≤ i → s1.transforms[i]? = s.transforms[i]?) := by
  intro k
  induction k with
  | zero =>
    intro s1 h
    simp only [skeleton_gen_transforms.loop] at h
    cases h
    exact ⟨rfl, rfl, rfl, Nat.zero_le _, fun i hi => absurd hi (Nat.not_lt_zero i), fun _ _ => rfl⟩
  | succ k ih =>
    intro s1 h
    simp only [skeleton_gen_transforms.loop] at h
    cases hq : skeleton_gen_transforms.loop fuel s k with
    | none => rw [hq] at h; cases h
    | some s0 =>
      rw [hq] at h
      obtain ⟨hb, hinv, hlen, _, hlt, hge⟩ := ih s0 hq
      obtain ⟨m, hm, hk, rfl⟩ := gen_transforms_body_spec fuel s0 s1 k h
      rw [hb] at hm
      refine ⟨hb, hinv, by simp [hlen], by omega, ?_, ?_⟩
      · intro i hi
        rcases Nat.lt_or_ge i k with h1 | h1
        · obtain ⟨m1, hm1, hget⟩ := hlt i h1
          refine ⟨m1, hm1, ?_⟩
          simp only [List.getElem?_set]
          rw [if_neg (by omega)]
          exact hget
        · have : i = k := by omega
          subst this
          exact ⟨m, hm, by simp [List.getElem?_set, hk]⟩
      · intro i hi
        simp only [List.getElem?_set]
        rw [if_neg (by omega)]
        exact hge i (by omega)

theorem gen_transforms_loop_total (fuel : Nat) (s : skeleton) :
    ∀ k, k ≤ s.transforms.length → (∀ i, i < k → bone_transform s.bones fuel i ≠ none) →
      ∃ s1, skeleton_gen_transforms.loop fuel s k = some s1 := by
  intro k
  induction k with
  | zero => intro _ _; exact ⟨s, rfl⟩
  | succ k ih =>
    intro hk hterm
    obtain ⟨s0, hs0⟩ := ih (by omega) (fun i hi => hterm i (by omega))
    obtain ⟨hb, _, hlen, _, _, _⟩ := gen_transforms_loop_spec fuel s k s0 hs0
    cases hq : bone_transform s.bones fuel k with
    | none => exact absurd hq (hterm k (by omega))
    | some m =>
      refine ⟨{ s0 with transforms := s0.transforms.set k m }, ?_⟩
      simp only [skeleton_gen_transforms.loop, hs0, skeleton_gen_transforms.body, hb, hq]
      rw [if_pos (by omega)]

theorem gen_inv_transforms_body_spec (fuel : Nat) (s s1 : skeleton) (i : Nat)
    (h : skeleton_gen_inv_transforms.body fuel s i = some s1) :
    ∃ m, bone_transform s.bones fuel i = some m ∧ i < s.transforms.length ∧
      i < s.inv_transforms.length ∧
      s1 = { s with transforms := s.transforms.set i m
                    inv_transforms := s.inv_transforms.set i (m44_inverse m) } := by
  unfold skeleton_gen_inv_transforms.body at h
  cases hq : bone_transform s.bones fuel i with
  | none => rw [hq] at h; cases h
  | some m =>
    rw [hq] at h
    by_cases hi : i < s.transforms.length
    · by_cases hj : i < s.inv_transforms.length
      · simp [hi, hj, List.getElem?_set] at h
        exact ⟨m, rfl, hi, hj, h.symm⟩
      · simp [hi, hj, List.getElem?_set] at h
    · simp [hi] at h

theorem gen_inv_transforms_loop_spec (fuel : Nat) (s : skeleton) :
    ∀ (k : Nat) (s1 : skeleton), skeleton_gen_inv_transforms.loop fuel s k = some s1 →
      s1.bones = s.bones ∧
      s1.transforms.length = s.transforms.length ∧
      s1.inv_transforms.length = s.inv_transforms.length ∧
      k ≤ s.transforms.length ∧ k ≤ s.inv_transforms.length ∧
      (∀ i, i < k → ∃ m, bone_transform s.bones fuel i = some m ∧
        s1.transforms[i]? = some m ∧ s1.inv_transforms[i]? = some (m44_inverse m)) ∧
      (∀ i, k ≤ i → s1.transforms[i]? = s.transforms[i]? ∧
        s1.inv_transforms[i]? = s.inv_transforms[i]?) := by
  intro k
  induction k with
  | zero =>
    intro s1 h
    simp only [skeleton_gen_inv_transforms.loop] at h
    cases h
    exact ⟨rfl, rfl, rfl, Nat.zero_le _, Nat.zero_le _,
      fun i hi => absurd hi (Nat.not_lt_zero i), fun _ _ => ⟨rfl, rfl⟩⟩
  | succ k ih =>
    intro s1 h
    simp only [skeleton_gen_inv_transforms.loop] at h
    cases hq : skeleton_gen_inv_transforms.loop fuel s k with
    | none => rw [hq] at h; cases h
    | some s0 =>
      rw [hq] at h
      obtain ⟨hb, hlen, hlen2, _, _, hlt, hge⟩ := ih s0 hq
      obtain ⟨m, hm, hk, hk2, rfl⟩ := gen_inv_transforms_body_spec fuel s0 s1 k h
      rw [hb] at hm
      refine ⟨hb, by simp [hlen], by simp [hlen2], by omega, by omega, ?_, ?_⟩
      · intro i hi
        rcases Nat.lt_or_ge i k with h1 | h1
        · obtain ⟨m1, hm1, hget, hget2⟩ := hlt i h1
          refine ⟨m1, hm1, ?_, ?_⟩
          · simp only [List.getElem?_set]
            rw [if_neg (by omega)]
            exact hget
          · simp only [List.getElem?_set]
            rw [if_neg (by omega)]
            exact hget2
        · have : i = k := by omega
          subst this
          exact ⟨m, hm, by simp [List.getElem?_set, hk], by simp [List.getElem?_set, hk2]⟩
      · intro i hi
        simp only [List.getElem?_set]
        rw [if_neg (by omega), if_neg (by omega)]
        exact hge i (by omega)

theorem gen_inv_transforms_loop_total (fuel : Nat) (s : skeleton) :
    ∀ k, k ≤ s.transforms.length → k ≤ s.inv_transforms.length →
      (∀ i, i < k → bone_transform s.bones fuel i ≠ none) →
      ∃ s1, skeleton_gen_inv_transforms.loop fuel s k = some s1 := by
  intro k
  induction k with
  | zero => intro _ _ _; exact ⟨s, rfl⟩
  | succ k ih =>
    intro hk hk2 hterm
    obtain ⟨s0, hs0⟩ := ih (by omega) (by omega) (fun i hi => hterm i (by omega))
    obtain ⟨hb, hlen, hlen2, _, _, _, _⟩ := gen_inv_transforms_loop_spec fuel s k s0 hs0
    cases hq : bone_transform s.bones fuel k with
    | none => exact absurd hq (hterm k (by omega))
    | some m =>
      refine ⟨{ s0 with transforms := s0.transforms.set k m
                        inv_transforms := s0.inv_transforms.set k (m44_inverse m) }, ?_⟩
      have h1 : k < s0.transforms.length := by omega
      have h2 : k < s0.inv_transforms.length := by omega
      simp [skeleton_gen_inv_transforms.loop, hs0, skeleton_gen_inv_transforms.body, hb, hq,
        h1, h2, List.getElem?_set]

/-- C4: transform generation postcondition.  Whenever `skeleton_gen_transforms`
or `skeleton_gen_inv_transforms` returns, entry `i` of `transforms` is
`bone_transform` of bone `i` for every `i < num_bones`, the bone sequence is
unchanged, and `skeleton_gen_transforms` leaves `inv_transforms` unchanged;
when both return they leave the same `transforms`; and both return as soon as
the two arrays have `num_bones` entries and every call of `bone_transform`
returns within the depth bound. -/
theorem gen_transforms_postcondition (fuel : Nat) (s : skeleton) :
    (∀ s1, skeleton_gen_transforms fuel s = some s1 →
      s1.bones = s.bones ∧ s1.inv_transforms = s.inv_transforms ∧
      ∀ i, i < s.num_bones →
        ∃ m, bone_transform s1.bones fuel i = some m ∧ s1.transforms[i]? = some m) ∧
    (∀ s2, skeleton_gen_inv_transforms fuel s = some s2 →
      s2.bones = s.bones ∧
      ∀ i, i < s.num_bones →
        ∃ m, bone_transform s2.bones fuel i = some m ∧ s2.transforms[i]? = some m) ∧
    (∀ s1 s2, skeleton_gen_transforms fuel s = some s1 →
      skeleton_gen_inv_transforms fuel s = some s2 → s1.transforms = s2.transforms) ∧
    (s.num_bones ≤ s.transforms.length → s.num_bones ≤ s.inv_transforms.length →
      (∀ i, i < s.num_bones → bone_transform s.bones fuel i ≠ none) →
      ∃ s1 s2, skeleton_gen_transforms fuel s = some s1 ∧
        skeleton_gen_inv_transforms fuel s = some s2) := by
  refine ⟨?_, ?_, ?_, ?_⟩
  · intro s1 h
    obtain ⟨hb, hinv, _, _, hlt, _⟩ := gen_transforms_loop_spec fuel s _ s1 h
    exact ⟨hb, hinv, fun i hi => by rw [hb]; exact hlt i hi⟩
  · intro s2 h
    obtain ⟨hb, _, _, _, _, hlt, _⟩ := gen_inv_transforms_loop_spec fuel s _ s2 h
    refine ⟨hb, fun i hi => ?_⟩
    obtain ⟨m, hm, hget, _⟩ := hlt i hi
    exact ⟨m, by rw [hb]; exact hm, hget⟩
  · intro s1 s2 h1 h2
    obtain ⟨_, _, _, _, hlt1, hge1⟩ := gen_transforms_loop_spec fuel s _ s1 h1
    obtain ⟨_, _, _, _, _, hlt2, hge2⟩ := gen_inv_transforms_loop_spec fuel s _ s2 h2
    apply List.ext_getElem?
    intro i
    rcases Nat.lt_or_ge i s.num_bones with hi | hi
    · obtain ⟨m1, hm1, hg1⟩ := hlt1 i hi
      obtain ⟨m2, hm2, hg2, _⟩ := hlt2 i hi
      rw [hg1, hg2, ← hm1, ← hm2]
    · rw [hge1 i hi, (hge2 i hi).1]
  · intro hT hI hterm
    obtain ⟨s1, h1⟩ := gen_transforms_loop_total fuel s _ hT hterm
    obtain ⟨s2, h2⟩ := gen_inv_transforms_loop_total fuel s _ hT hI hterm
    exact ⟨s1, s2, h1, h2⟩

theorem ex_chain_bone_transform_some : ∀ i, i < ex_chain.num_bones →
    bone_transform ex_chain.bones 3 i ≠ none := by
  intro i hi
  have h3 : i < 3 := hi
  interval_cases i <;> simp [bone_transform, ex_chain, ex_root, ex_mid, ex_leaf]

theorem gen_transforms_postcondition_witness :
    ∃ s1 s2, skeleton_gen_transforms 3 ex_chain = some s1 ∧
      skeleton_gen_inv_transforms 3 ex_chain = some s2 ∧
      s1.transforms = s2.transforms ∧ s1.bones = ex_chain.bones ∧
      s1.inv_transforms = ex_chain.inv_transforms := by
  obtain ⟨s1, s2, h1, h2⟩ := (gen_transforms_postcondition 3 ex_chain).2.2.2
    (Nat.le_refl 3) (Nat.le_refl 3) ex_chain_bone_transform_some
  have hpost := (gen_transforms_postcondition 3 ex_chain).1 s1 h1
  exact ⟨s1, s2, h1, h2, (gen_transforms_postcondition 3 ex_chain).2.2.1 s1 s2 h1 h2,
    hpost.1, hpost.2.1⟩

/-! ## Parent pointers to earlier bones -/

theorem parent_transGen_lt (bones : List bone)
    (hlt : ∀ b p, parent_of bones b p → p < b) (b c : Nat)
    (h : Relation.TransGen (parent_of bones) b c) : c < b := by
  induction h with
  | single h1 => exact hlt _ _ h1
  | tail _ h2 ih => exact Nat.lt_trans (hlt _ _ h2) ih

theorem acyclic_of_parent_lt (bones : List bone)
    (hlt : ∀ b p, parent_of bones b p → p < b) : acyclic bones ∧ parents_inside bones := by
  constructor
  · intro b h
    exact Nat.lt_irrefl b (parent_transGen_lt bones hlt b b h)
  · intro b p h
    obtain ⟨bn, hb, _⟩ := h
    have hb2 : b < bones.length := by
      rcases List.getElem?_eq_some.1 hb with ⟨hlen, _⟩
      exact hlen
    exact Nat.lt_trans (hlt b p ⟨bn, hb, ‹_›⟩) hb2

theorem ex_chain_parent_lt : ∀ b p, parent_of ex_chain.bones b p → p < b := by
  intro b p h
  obtain ⟨bn, hb, hp⟩ := h
  rcases b with _ | _ | _ | b
  · simp [ex_chain] at hb; subst hb; simp [ex_root] at hp
  · simp [ex_chain] at hb; subst hb; simp [ex_mid] at hp; omega
  · simp [ex_chain] at hb; subst hb; simp [ex_leaf] at hp; omega
  · simp [ex_chain] at hb

theorem ex_chain_rotation_isUnit : ∀ bn, bn ∈ ex_chain.bones → IsUnit bn.rotation := by
  intro bn h
  simp only [ex_chain, List.mem_cons, List.mem_singleton, List.not_mem_nil, or_false] at h
  rcases h with rfl | rfl | rfl <;> exact isUnit_one

/-- C3: after `skeleton_gen_inv_transforms` on a skeleton whose arrays have
`num_bones` entries, whose parent pointers stay inside the skeleton and form
an acyclic graph, and whose local rotations are invertible matrices, the
function returns (for every depth bound of at least `num_bones`) and, for
every `i < num_bones`, `inv_transforms[i]` is the exact two-sided inverse of
`transforms[i]`. -/
theorem gen_inv_transforms_exact_inverse (s : skeleton)
    (hT : s.num_bones ≤ s.transforms.length) (hI : s.num_bones ≤ s.inv_transforms.length)
    (hin : parents_inside s.bones) (hac : acyclic s.bones)
    (hrot : ∀ bn, bn ∈ s.bones → IsUnit bn.rotation)
    (fuel : Nat) (hf : s.num_bones ≤ fuel) :
    ∃ s1, skeleton_gen_inv_transforms fuel s = some s1 ∧
      ∀ i, i < s.num_bones → ∃ t v, s1.transforms[i]? = some t ∧
        s1.inv_transforms[i]? = some v ∧
        m44_mul_m44 t v = m44_id ∧ m44_mul_m44 v t = m44_id := by
  obtain ⟨s1, h1⟩ := gen_inv_transforms_loop_total fuel s _ hT hI
    (fun i hi => bone_transform_terminates s.bones hin hac i hi fuel hf)
  refine ⟨s1, h1, fun i hi => ?_⟩
  obtain ⟨_, _, _, _, _, hlt, _⟩ := gen_inv_transforms_loop_spec fuel s _ s1 h1
  obtain ⟨m, hm, hg1, hg2⟩ := hlt i hi
  have hu : IsUnit m := bone_transform_isUnit s.bones hrot fuel i m hm
  exact ⟨m, m44_inverse m, hg1, hg2, m44_inverse_mul_cancel m hu⟩

theorem gen_inv_transforms_exact_inverse_witness :
    ∃ s1, skeleton_gen_inv_transforms 3 ex_chain = some s1 ∧
      ∀ i, i < ex_chain.num_bones → ∃ t v, s1.transforms[i]? = some t ∧
        s1.inv_transforms[i]? = some v ∧
        m44_mul_m44 t v = m44_id ∧ m44_mul_m44 v t = m44_id :=
  gen_inv_transforms_exact_inverse ex_chain (Nat.le_refl 3) (Nat.le_refl 3)
    (acyclic_of_parent_lt ex_chain.bones ex_chain_parent_lt).2
    (acyclic_of_parent_lt ex_chain.bones ex_chain_parent_lt).1
    ex_chain_rotation_isUnit 3 (Nat.le_refl 3)

/-! ## Skeleton store: lengths -/

theorem skeleton_copy_num_bones (old : skeleton) :
    (skeleton_copy old).num_bones = old.num_bones := by
  simp [skeleton_copy, skeleton.num_bones]

theorem reachable_aligned (s : skeleton) (h : reachable s) :
    s.transforms.length = s.num_bones ∧ s.inv_transforms.length = s.num_bones := by
  induction h with
  | new => exact ⟨rfl, rfl⟩
  | add_bone s name id parent_id _ ih =>
    simp only [skeleton_add_bone, skeleton.num_bones, List.length_append, List.length_singleton]
    simp only [skeleton.num_bones] at ih
    omega
  | copy s _ ih =>
    rw [skeleton_copy_num_bones]
    simp only [skeleton_copy, List.length_take]
    omega
  | gen_transforms fuel s s1 _ hg ih =>
    obtain ⟨hb, hinv, hlen, _, _, _⟩ := gen_transforms_loop_spec fuel s _ s1 hg
    simp only [skeleton.num_bones] at ih ⊢
    rw [hb, hinv, hlen]
    exact ih
  | gen_inv_transforms fuel s s1 _ hg ih =>
    obtain ⟨hb, hlen, hlen2, _, _, _, _⟩ := gen_inv_transforms_loop_spec fuel s _ s1 hg
    simp only [skeleton.num_bones] at ih ⊢
    rw [hb, hlen, hlen2]
    exact ih

/-- C5: length invariant.  Every skeleton reachable from `skeleton_new` by
`skeleton_add_bone`, `skeleton_copy` and transform generation has as many
entries in `transforms` and in `inv_transforms` as it has bones;
`skeleton_new` has none of each, `skeleton_add_bone` adds exactly one to each,
and `skeleton_copy` of a reachable skeleton has the counts of its source. -/
theorem skeleton_length_invariant :
    (∀ s, reachable s →
      s.transforms.length = s.num_bones ∧ s.inv_transforms.length = s.num_bones) ∧
    (skeleton_new.num_bones = 0 ∧ skeleton_new.transforms.length = 0 ∧
      skeleton_new.inv_transforms.length = 0) ∧
    (∀ s name id parent_id,
      (skeleton_add_bone s name id parent_id).num_bones = s.num_bones + 1 ∧
      (skeleton_add_bone s name id parent_id).transforms.length = s.transforms.length + 1 ∧
      (skeleton_add_bone s name id parent_id).inv_transforms.length =
        s.inv_transforms.length + 1) ∧
    (∀ s, reachable s →
      (skeleton_copy s).num_bones = s.num_bones ∧
      (skeleton_copy s).transforms.length = s.transforms.length ∧
      (skeleton_copy s).inv_transforms.length = s.inv_transforms.length) := by
  refine ⟨reachable_aligned, ⟨rfl, rfl, rfl⟩, ?_, ?_⟩
  · intro s name id parent_id
    simp [skeleton_add_bone, skeleton.num_bones]
  · intro s hs
    obtain ⟨h1, h2⟩ := reachable_aligned s hs
    refine ⟨skeleton_copy_num_bones s, ?_, ?_⟩
    · simp only [skeleton_copy, List.length_take]; omega
    · simp only [skeleton_copy, List.length_take]; omega

theorem skeleton_length_invariant_witness :
    (skeleton_copy (skeleton_add_bone skeleton_new "root" 0 (-1))).transforms.length =
        (skeleton_copy (skeleton_add_bone skeleton_new "root" 0 (-1))).num_bones ∧
    (skeleton_copy (skeleton_add_bone skeleton_new "root" 0 (-1))).inv_transforms.length =
        (skeleton_copy (skeleton_add_bone skeleton_new "root" 0 (-1))).num_bones :=
  skeleton_length_invariant.1 _ (.copy _ (.add_bone _ "root" 0 (-1) .new))

/-! ## Lookup by id -/

theorem scan_some_spec (id : Int) :
    ∀ (bs : List bone) (k i : Nat), skeleton_bone_id.scan id bs k = some i →
      k ≤ i ∧ (∃ b, bs[i - k]? = some b ∧ b.id = id) ∧
      ∀ j b, j < i - k → bs[j]? = some b → b.id ≠ id := by
  intro bs
  induction bs with
  | nil => intro k i h; simp [skeleton_bone_id.scan] at h
  | cons b bs ih =>
    intro k i h
    simp only [skeleton_bone_id.scan] at h
    by_cases hb : b.id = id
    · rw [if_pos hb] at h
      cases h
      refine ⟨Nat.le_refl _, ⟨b, by simp, hb⟩, ?_⟩
      intro j b' hj
      omega
    · rw [if_neg hb] at h
      obtain ⟨hk, ⟨b1, hb1, hid⟩, hfirst⟩ := ih (k + 1) i h
      have e : i - k = (i - (k + 1)) + 1 := by omega
      refine ⟨by omega, ⟨b1, by rw [e]; simpa using hb1, hid⟩, ?_⟩
      intro j b' hj hget
      cases j with
      | zero => simp at hget; subst hget; exact hb
      | succ j => exact hfirst j b' (by omega) (by simpa using hget)

theorem scan_none_iff (id : Int) :
    ∀ (bs : List bone) (k : Nat),
      skeleton_bone_id.scan id bs k = none ↔ ∀ b, b ∈ bs → b.id ≠ id := by
  intro bs
  induction bs with
  | nil => intro k; simp [skeleton_bone_id.scan]
  | cons b bs ih =>
    intro k
    simp only [skeleton_bone_id.scan]
    by_cases hb : b.id = id
    · simp [hb]
    · simp [hb, ih (k + 1)]

theorem scan_first (id : Int) :
    ∀ (bs : List bone) (k i : Nat) (b : bone), bs[i]? = some b → b.id = id →
      (∀ j b1, j < i → bs[j]? = some b1 → b1.id ≠ id) →
      skeleton_bone_id.scan id bs k = some (k + i) := by
  intro bs
  induction bs with
  | nil => intro k i b h; simp at h
  | cons b0 bs ih =>
    intro k i b hget hid hfirst
    simp only [skeleton_bone_id.scan]
    cases i with
    | zero =>
      simp at hget
      subst hget
      simp [hid]
    | succ i =>
      have h0 : b0.id ≠ id := hfirst 0 b0 (by omega) (by simp)
      rw [if_neg h0]
      have := ih (k + 1) i b (by simpa using hget) hid
        (fun j b1 hj hg => hfirst (j + 1) b1 (by omega) (by simpa using hg))
      rw [this]
      congr 1
      omega

theorem skeleton_bone_id_sentinel (s : skeleton) : skeleton_bone_id s (-1) = (none, []) := by
  simp [skeleton_bone_id]

theorem skeleton_bone_id_absent (s : skeleton) (id : Int) (hid : id ≠ -1)
    (habs : ∀ b, b ∈ s.bones → b.id ≠ id) : skeleton_bone_id s id = (none, [id]) := by
  have := (scan_none_iff id s.bones 0).2 habs
  simp [skeleton_bone_id, hid, this]

theorem skeleton_bone_id_found (s : skeleton) (id : Int) (hid : id ≠ -1) (i : Nat) (b : bone)
    (hget : s.bones[i]? = some b) (hb : b.id = id)
    (hfirst : ∀ j b1, j < i → s.bones[j]? = some b1 → b1.id ≠ id) :
    skeleton_bone_id s id = (some i, []) := by
  have := scan_first id s.bones 0 i b hget hb hfirst
  simp [skeleton_bone_id, hid, this]

theorem skeleton_bone_id_some_spec (s : skeleton) (id : Int) (i : Nat)
    (h : (skeleton_bone_id s id).1 = some i) :
    id ≠ -1 ∧ (∃ b, s.bones[i]? = some b ∧ b.id = id) ∧
      ∀ j b, j < i → s.bones[j]? = some b → b.id ≠ id := by
  unfold skeleton_bone_id at h
  by_cases hid : id = -1
  · simp [hid] at h
  · rw [if_neg hid] at h
    cases hq : skeleton_bone_id.scan id s.bones 0 with
    | none => rw [hq] at h; simp at h
    | some k =>
      rw [hq] at h
      simp at h
      subst h
      obtain ⟨_, hex, hfirst⟩ := scan_some_spec id s.bones 0 k hq
      exact ⟨hid, by simpa using hex, fun j b hj => hfirst j b (by omega)⟩

/-- C7: `skeleton_bone_id` is first-match lookup.  For an id other than `-1`
it returns the smallest index whose bone has that id when there is one, and
every bone it returns has the requested id; when no bone has the id it
returns no bone, having only issued a warning; for `-1` it returns no bone
for every skeleton, without a warning. -/
theorem skeleton_bone_id_first_match (s : skeleton) :
    (∀ id, id ≠ -1 → ∀ i b, s.bones[i]? = some b → b.id = id →
      (∀ j b1, j < i → s.bones[j]? = some b1 → b1.id ≠ id) →
      (skeleton_bone_id s id).1 = some i) ∧
    (∀ id i, (skeleton_bone_id s id).1 = some i →
      (∃ b, s.bones[i]? = some b ∧ b.id = id) ∧
      ∀ j b, j < i → s.bones[j]? = some b → b.id ≠ id) ∧
    (∀ id, id ≠ -1 → (∀ b, b ∈ s.bones → b.id ≠ id) →
      skeleton_bone_id s id = (none, [id])) ∧
    skeleton_bone_id s (-1) = (none, []) := by
  refine ⟨?_, ?_, skeleton_bone_id_absent s, skeleton_bone_id_sentinel s⟩
  · intro id hid i b hget hb hfirst
    rw [skeleton_bone_id_found s id hid i b hget hb hfirst]
  · intro id i h
    exact (skeleton_bone_id_some_spec s id i h).2

theorem skeleton_bone_id_first_match_witness :
    (skeleton_bone_id ex_sentinel 1).1 = some 1 ∧
    skeleton_bone_id ex_sentinel 5 = (none, [5]) ∧
    skeleton_bone_id ex_sentinel (-1) = (none, []) := by
  refine ⟨(skeleton_bone_id_first_match ex_sentinel).1 1 (by decide) 1 ex_mid rfl rfl ?_,
    (skeleton_bone_id_first_match ex_sentinel).2.2.1 5 (by decide) ?_,
    (skeleton_bone_id_first_match ex_sentinel).2.2.2⟩
  · intro j b1 hj hget
    have : j = 0 := by omega
    subst this
    simp [ex_sentinel] at hget
    subst hget
    decide
  · intro b hb
    simp only [ex_sentinel, List.mem_cons, List.mem_singleton, List.not_mem_nil, or_false] at hb
    rcases hb with rfl | rfl <;> simp [ex_mid]

/-! ## Adding a bone -/

/-- C6: `skeleton_add_bone` postcondition.  The bone sequence is the old one
followed by one bone with the given id and name, zero position, identity
rotation and the parent that `skeleton_bone_id` finds for `parent_id` in the
skeleton before the append (none for `-1` and for an id no bone has); both
matrix sequences are the old ones followed by one identity matrix; all
earlier bones and matrices are unchanged; and a bone added before its parent
keeps no parent when a bone with that id is added later. -/
theorem skeleton_add_bone_postcondition (s : skeleton) (name : String) (id parent_id : Int) :
    (skeleton_add_bone s name id parent_id).bones =
      s.bones ++ [{ id := id, name := name, position := v3_zero, rotation := m44_id,
                    parent := (skeleton_bone_id s parent_id).1 }] ∧
    (parent_id = -1 → (skeleton_bone_id s parent_id).1 = none) ∧
    ((∀ b, b ∈ s.bones → b.id ≠ parent_id) → (skeleton_bone_id s parent_id).1 = none) ∧
    (skeleton_add_bone s name id parent_id).transforms = s.transforms ++ [m44_id] ∧
    (skeleton_add_bone s name id parent_id).inv_transforms = s.inv_transforms ++ [m44_id] ∧
    (∀ i, i < s.num_bones →
      (skeleton_add_bone s name id parent_id).bones[i]? = s.bones[i]?) ∧
    (∀ i, i < s.transforms.length →
      (skeleton_add_bone s name id parent_id).transforms[i]? = s.transforms[i]?) ∧
    (∀ i, i < s.inv_transforms.length →
      (skeleton_add_bone s name id parent_id).inv_transforms[i]? = s.inv_transforms[i]?) ∧
    ((∀ b, b ∈ s.bones → b.id ≠ parent_id) → ∀ name2 parent_id2,
      (skeleton_add_bone (skeleton_add_bone s name id parent_id)
          name2 parent_id parent_id2).bones[s.num_bones]? =
        some { id := id, name := name, position := v3_zero, rotation := m44_id,
               parent := none }) := by
  have hnone : (∀ b, b ∈ s.bones → b.id ≠ parent_id) → (skeleton_bone_id s parent_id).1 = none := by
    intro habs
    by_cases hp : parent_id = -1
    · rw [hp, skeleton_bone_id_sentinel]
    · rw [skeleton_bone_id_absent s parent_id hp habs]
  refine ⟨rfl, ?_, hnone, rfl, rfl, ?_, ?_, ?_, ?_⟩
  · intro hp
    rw [hp, skeleton_bone_id_sentinel]
  · intro i hi
    exact List.getElem?_append_left hi
  · intro i hi
    exact List.getElem?_append_left hi
  · intro i hi
    exact List.getElem?_append_left hi
  · intro habs name2 parent_id2
    simp only [skeleton_add_bone, skeleton.num_bones, bone_new, hnone habs]
    rw [List.getElem?_append_left (by simp)]
    simp

theorem skeleton_add_bone_postcondition_witness :
    (skeleton_bone_id skeleton_new 0).1 = none ∧
    (skeleton_add_bone (skeleton_add_bone skeleton_new "child" 1 0) "root" 0 (-1)).bones[0]? =
      some { id := 1, name := "child", position := v3_zero, rotation := m44_id,
             parent := none } :=
  ⟨(skeleton_add_bone_postcondition skeleton_new "child" 1 0).2.2.1
      (fun _ hb => absurd hb (List.not_mem_nil _)),
   (skeleton_add_bone_postcondition skeleton_new "child" 1 0).2.2.2.2.2.2.2.2
      (fun _ hb => absurd hb (List.not_mem_nil _)) "root" (-1)⟩

/-! ## Not found versus the sentinel -/

/-- C8, as stated, fails: in the three-bone example, whose ids are 0, 1 and
2, looking up the absent id 7 returns the same bone pointer as looking up the
sentinel -1. -/
theorem skeleton_bone_id_not_found_indistinct :
    List.map bone.id ex_chain.bones = [0, 1, 2] ∧
    ¬ ((skeleton_bone_id ex_chain 7).1 ≠ (skeleton_bone_id ex_chain (-1)).1) := by
  refine ⟨rfl, ?_⟩
  simp [skeleton_bone_id, skeleton_bone_id.scan, ex_chain, ex_root, ex_mid, ex_leaf]

/-- C8, amended: for an id other than `-1` that no bone has, `skeleton_bone_id`
returns the same bone pointer as for `-1`, namely none; the two lookups differ
only in the warning, issued for the absent id and not for `-1`; and
`skeleton_add_bone` builds the same skeleton from either parent id. -/
theorem skeleton_bone_id_not_found_vs_sentinel (s : skeleton) (id : Int) (hid : id ≠ -1)
    (habs : ∀ b, b ∈ s.bones → b.id ≠ id) :
    (skeleton_bone_id s id).1 = (skeleton_bone_id s (-1)).1 ∧
    (skeleton_bone_id s id).1 = none ∧
    (skeleton_bone_id s id).2 = [id] ∧ (skeleton_bone_id s (-1)).2 = [] ∧
    ∀ name bid, skeleton_add_bone s name bid id = skeleton_add_bone s name bid (-1) := by
  rw [skeleton_bone_id_absent s id hid habs, skeleton_bone_id_sentinel]
  refine ⟨rfl, rfl, rfl, rfl, ?_⟩
  intro name bid
  simp [skeleton_add_bone, skeleton_bone_id_absent s id hid habs, skeleton_bone_id_sentinel]

theorem skeleton_bone_id_not_found_vs_sentinel_witness :
    (skeleton_bone_id skeleton_new 7).1 = (skeleton_bone_id skeleton_new (-1)).1 ∧
    (skeleton_bone_id skeleton_new 7).1 = none ∧
    (skeleton_bone_id skeleton_new 7).2 = [7] ∧ (skeleton_bone_id skeleton_new (-1)).2 = [] ∧
    skeleton_add_bone skeleton_new "hip" 3 7 = skeleton_add_bone skeleton_new "hip" 3 (-1) :=
  have h := skeleton_bone_id_not_found_vs_sentinel skeleton_new 7 (by decide)
    (fun _ hb => absurd hb (List.not_mem_nil _))
  ⟨h.1, h.2.1, h.2.2.1, h.2.2.2.1, h.2.2.2.2 "hip" 3⟩

/-! ## Copying a skeleton -/

theorem skeleton_copy_bones_get (old : skeleton) (i : Nat) (b : bone)
    (h : old.bones[i]? = some b) :
    (skeleton_copy old).bones[i]? =
      some { id := b.id, name := b.name, position := b.position, rotation := b.rotation,
             parent := skeleton_copy.link old
               { bones := old.bones.map skeleton_copy.fresh, transforms := [],
                 inv_transforms := [] } b } := by
  simp [skeleton_copy, List.getElem?_zipWith, h, skeleton_copy.fresh, bone_new]

/-- C9: `skeleton_copy` preserves per-bone data and matrices.  The copy has as
many bones as the source, in the same order; bone `i` of the copy has the id,
name, position and rotation of bone `i` of the source; and entry `i` of
`transforms` and of `inv_transforms` of the copy is the entry `i` of the
source, whatever it holds. -/
theorem skeleton_copy_preserves_data (old : skeleton) :
    (skeleton_copy old).num_bones = old.num_bones ∧
    (∀ (i : Nat) (b : bone), old.bones[i]? = some b →
      ∃ nb : bone, (skeleton_copy old).bones[i]? = some nb ∧ nb.id = b.id ∧ nb.name = b.name ∧
        nb.position = b.position ∧ nb.rotation = b.rotation) ∧
    (∀ i, i < old.num_bones →
      (skeleton_copy old).transforms[i]? = old.transforms[i]? ∧
      (skeleton_copy old).inv_transforms[i]? = old.inv_transforms[i]?) := by
  refine ⟨skeleton_copy_num_bones old, ?_, ?_⟩
  · intro i b h
    exact ⟨_, skeleton_copy_bones_get old i b h, rfl, rfl, rfl, rfl⟩
  · intro i hi
    simp [skeleton_copy, List.getElem?_take, hi]

theorem skeleton_copy_preserves_data_witness :
    (∃ nb : bone, (skeleton_copy ex_chain).bones[2]? = some nb ∧ nb.id = ex_leaf.id ∧
      nb.name = ex_leaf.name ∧ nb.position = ex_leaf.position ∧
      nb.rotation = ex_leaf.rotation) ∧
    (skeleton_copy ex_chain).transforms[2]? = ex_chain.transforms[2]? ∧
    (skeleton_copy ex_chain).inv_transforms[2]? = ex_chain.inv_transforms[2]? :=
  ⟨(skeleton_copy_preserves_data ex_chain).2.1 2 ex_leaf rfl,
   (skeleton_copy_preserves_data ex_chain).2.2 2 (by decide)⟩

theorem nodup_ids_first (bones : List bone) (hnodup : (bones.map bone.id).Nodup)
    (p : Nat) (pb : bone) (hp : bones[p]? = some pb) :
    ∀ j b1, j < p → bones[j]? = some b1 → b1.id ≠ pb.id := by
  intro j b1 hj hget heq
  have hpl : p < (bones.map bone.id).length := by
    rcases List.getElem?_eq_some.1 hp with ⟨h, _⟩
    simpa using h
  have hjl : j < (bones.map bone.id).length := by omega
  have h1 : (bones.map bone.id)[j]? = some b1.id := by simp [hget]
  have h2 : (bones.map bone.id)[p]? = some pb.id := by simp [hp]
  rw [List.getElem?_eq_getElem hjl] at h1
  rw [List.getElem?_eq_getElem hpl] at h2
  have h3 : (bones.map bone.id)[j] = (bones.map bone.id)[p] := by
    rw [Option.some.inj h1, Option.some.inj h2, heq]
  have := (List.Nodup.getElem_inj_iff hnodup).1 h3
  omega

/-- C10: `skeleton_copy` preserves the parent topology.  For a source whose
bone ids are pairwise distinct, none of them `-1`, and whose parent pointers
all point to bones of the source, bone `i` of the copy has no parent exactly
when bone `i` of the source has none, and otherwise its parent is the bone of
the copy at the index at which the source bone's parent sits in the source. -/
theorem skeleton_copy_preserves_parents (old : skeleton)
    (hnodup : (old.bones.map bone.id).Nodup)
    (hneg : ∀ b, b ∈ old.bones → b.id ≠ -1)
    (hin : parents_inside old.bones) :
    ∀ (i : Nat) (b : bone), old.bones[i]? = some b →
      ∃ nb : bone, (skeleton_copy old).bones[i]? = some nb ∧
        (nb.parent = none ↔ b.parent = none) ∧
        (∀ j, b.parent = some j → nb.parent = some j ∧ j < (skeleton_copy old).num_bones) ∧
        nb.parent = b.parent := by
  intro i b hb
  have key : skeleton_copy.link old
      { bones := old.bones.map skeleton_copy.fresh, transforms := [], inv_transforms := [] } b =
      b.parent := by
    unfold skeleton_copy.link
    cases hp : b.parent with
    | none => rfl
    | some p =>
      have hpl : p < old.bones.length := hin i p ⟨b, hb, hp⟩
      have hpb : old.bones[p]? = some old.bones[p] := List.getElem?_eq_getElem hpl
      simp only [hpb]
      rw [skeleton_bone_id_found _ _ (hneg _ (List.getElem?_mem hpb)) p
        (skeleton_copy.fresh old.bones[p]) (by simp [hpb]) rfl]
      intro j b1 hj hget
      simp only [List.getElem?_map, Option.map_eq_some'] at hget
      obtain ⟨b0, hb0, rfl⟩ := hget
      exact nodup_ids_first old.bones hnodup p _ hpb j b0 hj hb0
  refine ⟨_, skeleton_copy_bones_get old i b hb, ?_, ?_, ?_⟩
  · simp only [key]
  · intro j hj
    simp only [key]
    exact ⟨hj, by rw [skeleton_copy_num_bones]; exact hin i j ⟨b, hb, hj⟩⟩
  · simp only [key]

theorem ex_chain_ids_nodup : (ex_chain.bones.map bone.id).Nodup := by
  simp [ex_chain, ex_root, ex_mid, ex_leaf]

theorem ex_chain_ids_ne_sentinel : ∀ b, b ∈ ex_chain.bones → b.id ≠ -1 := by
  intro b hb
  simp only [ex_chain, List.mem_cons, List.mem_singleton, List.not_mem_nil, or_false] at hb
  rcases hb with rfl | rfl | rfl <;> simp [ex_root, ex_mid, ex_leaf]

theorem skeleton_copy_preserves_parents_witness :
    ∃ nb : bone, (skeleton_copy ex_chain).bones[2]? = some nb ∧
      (nb.parent = none ↔ ex_leaf.parent = none) ∧
      (∀ j, ex_leaf.parent = some j →
        nb.parent = some j ∧ j < (skeleton_copy ex_chain).num_bones) ∧
      nb.parent = ex_leaf.parent :=
  skeleton_copy_preserves_parents ex_chain ex_chain_ids_nodup ex_chain_ids_ne_sentinel
    (acyclic_of_parent_lt ex_chain.bones ex_chain_parent_lt).2 2 ex_leaf rfl

/-! ## The rotation conversion of the loader -/

theorem handedflip_mul_self : handedflip * handedflip = 1 := by
  ext i j
  fin_cases i <;> fin_cases j <;>
    simp [handedflip, Matrix.mul_apply, Fin.sum_univ_four, Matrix.vecHead, Matrix.vecTail]

theorem handedflip_transpose : Matrix.transpose handedflip = handedflip := by
  ext i j
  fin_cases i <;> fin_cases j <;>
    simp [handedflip, Matrix.transpose_apply, Matrix.vecHead, Matrix.vecTail]

theorem handedflip_det : Matrix.det handedflip = -1 := by
  simp [handedflip, Matrix.det_succ_row_zero, Fin.sum_univ_succ, Fin.succAbove]

theorem convert_eq (R : matrix_4x4) :
    skl_load_file.convert R = Matrix.transpose (handedflip * R * handedflip) := rfl

/-- C20: the loader's rotation conversion `conv(R) = transpose(F * R * F)`,
with `F` the matrix `handedflip`, keeps rotations rotations.  `F * F` is the
identity; when `R * transpose(R)` is the identity then so is
`conv(R) * transpose(conv(R))`; the determinant of `conv(R)` is that of `R`;
`conv` of the identity is the identity; and `conv(R)` is invertible whenever
`R` is. -/
theorem skl_load_file_convert_rotation :
    m44_mul_m44 handedflip handedflip = m44_id ∧
    (∀ R : matrix_4x4, m44_mul_m44 R (m44_transpose R) = m44_id →
      m44_mul_m44 (skl_load_file.convert R) (m44_transpose (skl_load_file.convert R)) = m44_id) ∧
    (∀ R : matrix_4x4, Matrix.det (skl_load_file.convert R) = Matrix.det R) ∧
    skl_load_file.convert m44_id = m44_id ∧
    (∀ R : matrix_4x4, IsUnit R → IsUnit (skl_load_file.convert R)) := by
  refine ⟨handedflip_mul_self, ?_, ?_, ?_, ?_⟩
  · intro R hR
    simp only [m44_mul_m44, m44_transpose, m44_id] at hR ⊢
    have hR2 : Matrix.transpose R * R = 1 := Matrix.mul_eq_one_comm.mp hR
    rw [convert_eq, Matrix.transpose_transpose, Matrix.transpose_mul, Matrix.transpose_mul,
      handedflip_transpose]
    calc handedflip * (Matrix.transpose R * handedflip) * (handedflip * R * handedflip)
        = handedflip * (Matrix.transpose R * (handedflip * handedflip) * R) * handedflip := by
          simp only [Matrix.mul_assoc]
      _ = 1 := by
          rw [handedflip_mul_self, Matrix.mul_one, hR2, Matrix.mul_one, handedflip_mul_self]
  · intro R
    rw [convert_eq, Matrix.det_transpose, Matrix.det_mul, Matrix.det_mul, handedflip_det]
    ring
  · rw [convert_eq]
    simp only [m44_id, Matrix.mul_one, handedflip_mul_self, Matrix.transpose_one]
  · intro R hR
    rw [Matrix.isUnit_iff_isUnit_det] at hR ⊢
    rw [convert_eq, Matrix.det_transpose, Matrix.det_mul, Matrix.det_mul, handedflip_det]
    have : -1 * Matrix.det R * -1 = Matrix.det R := by ring
    rw [this]
    exact hR

theorem skl_load_file_convert_rotation_witness :
    m44_mul_m44 (skl_load_file.convert handedflip)
        (m44_transpose (skl_load_file.convert handedflip)) = m44_id ∧
    IsUnit (skl_load_file.convert handedflip) :=
  ⟨skl_load_file_convert_rotation.2.1 handedflip
      (by rw [m44_transpose, handedflip_transpose]; exact handedflip_mul_self),
   skl_load_file_convert_rotation.2.2.2.2 handedflip
      (by
        rw [Matrix.isUnit_iff_isUnit_det, handedflip_det]
        exact isUnit_one.neg)⟩

/-! ## The parent graph of built and loaded skeletons -/

theorem skeleton_bone_id_lt (s : skeleton) (id : Int) (p : Nat)
    (h : (skeleton_bone_id s id).1 = some p) : p < s.bones.length := by
  obtain ⟨_, ⟨b, hb, _⟩, _⟩ := skeleton_bone_id_some_spec s id p h
  exact (List.getElem?_eq_some.1 hb).1

theorem add_bone_parents_earlier (s : skeleton) (name : String) (id parent_id : Int)
    (h : parents_earlier s.bones) :
    parents_earlier (skeleton_add_bone s name id parent_id).bones := by
  intro b p hpar
  obtain ⟨bn, hb, hp⟩ := hpar
  simp only [skeleton_add_bone] at hb
  rcases Nat.lt_or_ge b s.bones.length with hlt | hge
  · rw [List.getElem?_append_left hlt] at hb
    exact h b p ⟨bn, hb, hp⟩
  · rw [List.getElem?_append_right hge] at hb
    have hb0 : b - s.bones.length = 0 := by
      by_contra hne
      obtain ⟨k, hk⟩ := Nat.exists_eq_succ_of_ne_zero hne
      rw [hk] at hb
      simp at hb
    rw [hb0] at hb
    simp only [List.getElem?_cons_zero, Option.some.injEq] at hb
    subst hb
    simp only [bone_new] at hp
    have := skeleton_bone_id_lt s parent_id p hp
    omega

theorem built_parents_earlier (s : skeleton) (h : built s) : parents_earlier s.bones := by
  induction h with
  | new =>
    intro b p hpar
    obtain ⟨bn, hb, _⟩ := hpar
    simp [skeleton_new] at hb
  | add_bone s name id parent_id _ ih => exact add_bone_parents_earlier s name id parent_id ih

theorem pose_getElem? (euler : rotation_euler) (s : skeleton) (b : Nat)
    (x y z rx ry rz : ℚ) (i : Nat) :
    (skl_load_file.pose euler s b x y z rx ry rz).bones[i]? =
      (s.bones[i]?).map (fun bn =>
        if b = i then { bn with position := v3 x z y,
                                rotation := skl_load_file.convert (euler rx ry rz) }
        else bn) := by
  simp only [skl_load_file.pose, List.getElem?_modify]
  rfl

theorem pose_parent_of (euler : rotation_euler) (s : skeleton) (b : Nat)
    (x y z rx ry rz : ℚ) (i p : Nat) :
    parent_of (skl_load_file.pose euler s b x y z rx ry rz).bones i p ↔ parent_of s.bones i p := by
  unfold parent_of
  rw [pose_getElem?]
  constructor
  · rintro ⟨bn, hb, hp⟩
    cases hq : s.bones[i]? with
    | none => rw [hq] at hb; simp at hb
    | some bo =>
      rw [hq] at hb
      simp only [Option.map_some', Option.some.injEq] at hb
      refine ⟨bo, rfl, ?_⟩
      subst hb
      by_cases hbi : b = i
      · simpa [hbi] using hp
      · simpa [hbi] using hp
  · rintro ⟨bo, hb, hp⟩
    rw [hb]
    refine ⟨_, rfl, ?_⟩
    by_cases hbi : b = i
    · simpa [hbi] using hp
    · simpa [hbi] using hp

theorem line_parents_earlier (euler : rotation_euler) (state state1 : Int) (s s1 : skeleton)
    (line : List Char) (h : skl_load_file.line euler state s line = .ok (state1, s1))
    (hs : parents_earlier s.bones) : parents_earlier s1.bones := by
  unfold skl_load_file.line at h
  split at h
  · unfold skl_load_file.in_empty at h
    split at h
    · split at h
      · cases h
      · simp only [outcome.ok.injEq, Prod.mk.injEq] at h
        rw [← h.2]; exact hs
    · simp only [outcome.ok.injEq, Prod.mk.injEq] at h
      rw [← h.2]; exact hs
  · split at h
    · unfold skl_load_file.in_nodes at h
      simp only [outcome.ok.injEq, Prod.mk.injEq] at h
      rw [← h.2]
      split
      · exact add_bone_parents_earlier _ _ _ _ hs
      · exact hs
    · split at h
      · unfold skl_load_file.in_skeleton at h
        split at h
        · split at h
          · cases h
          · split at h
            · simp only [outcome.ok.injEq, Prod.mk.injEq] at h
              rw [← h.2]
              intro i p hp
              exact hs i p ((pose_parent_of _ _ _ _ _ _ _ _ _ i p).1 hp)
            · cases h
        · simp only [outcome.ok.injEq, Prod.mk.injEq] at h
          rw [← h.2]; exact hs
      · simp only [outcome.ok.injEq, Prod.mk.injEq] at h
        rw [← h.2]; exact hs

theorem lines_parents_earlier (euler : rotation_euler) (lines : List String) :
    ∀ (state state1 : Int) (s s1 : skeleton),
      skl_load_file.lines euler state s lines = .ok (state1, s1) →
      parents_earlier s.bones → parents_earlier s1.bones := by
  induction lines with
  | nil =>
    intro state state1 s s1 h hs
    simp only [skl_load_file.lines, outcome.ok.injEq, Prod.mk.injEq] at h
    rw [← h.2]; exact hs
  | cons line rest ih =>
    intro state state1 s s1 h hs
    simp only [skl_load_file.lines] at h
    cases hq : skl_load_file.line euler state s line.toList with
    | error e => rw [hq] at h; cases h
    | not_finite => rw [hq] at h; cases h
    | ok r =>
      obtain ⟨state2, s2⟩ := r
      rw [hq] at h
      exact ih state2 state1 s2 s1 h (line_parents_earlier euler state state2 s s2 _ hq hs)

theorem skl_load_file_ok_spec (euler : rotation_euler) (fuel : Nat)
    (file : Option (List String)) (s1 : skeleton)
    (h : skl_load_file euler fuel file = some (.ok s1)) :
    ∃ lines state s, file = some lines ∧
      skl_load_file.lines euler state_load_empty skeleton_new lines = .ok (state, s) ∧
      skeleton_gen_inv_transforms fuel s = some s1 := by
  unfold skl_load_file at h
  cases file with
  | none => simp at h
  | some lines =>
    simp only at h
    cases hq : skl_load_file.lines euler state_load_empty skeleton_new lines with
    | error e => rw [hq] at h; simp at h
    | not_finite => rw [hq] at h; simp at h
    | ok r =>
      obtain ⟨state, s⟩ := r
      rw [hq] at h
      simp only at h
      cases hg : skeleton_gen_inv_transforms fuel s with
      | none => rw [hg] at h; simp at h
      | some s2 =>
        rw [hg] at h
        simp only [Option.some.injEq, outcome.ok.injEq] at h
        subst h
        exact ⟨lines, state, s, rfl, hq, hg⟩

theorem skeleton_new_parents_earlier : parents_earlier skeleton_new.bones := by
  intro b p hpar
  obtain ⟨bn, hb, _⟩ := hpar
  simp [skeleton_new] at hb

theorem loaded_parents_earlier (euler : rotation_euler) (fuel : Nat)
    (file : Option (List String)) (s1 : skeleton)
    (h : skl_load_file euler fuel file = some (.ok s1)) : parents_earlier s1.bones := by
  obtain ⟨lines, state, s, _, hl, hg⟩ := skl_load_file_ok_spec euler fuel file s1 h
  obtain ⟨hb, _⟩ := gen_inv_transforms_loop_spec fuel s _ s1 hg
  rw [hb]
  exact lines_parents_earlier euler lines _ _ _ _ hl skeleton_new_parents_earlier

/-- C11: parent-graph invariant.  In every skeleton built from `skeleton_new`
by `skeleton_add_bone` calls with arbitrary arguments, and in every skeleton
that `skl_load_file` returns, the parent of a bone is none or a bone of the
same skeleton at a strictly smaller index; so every parent pointer stays
inside the skeleton and the parent graph is acyclic. -/
theorem parent_graph_invariant :
    (∀ s, built s →
      (∀ (b : Nat) (bn : bone) (p : Nat), s.bones[b]? = some bn → bn.parent = some p →
        p < b ∧ p < s.num_bones) ∧
      acyclic s.bones) ∧
    (∀ (euler : rotation_euler) (fuel : Nat) (file : Option (List String)) (s : skeleton),
      skl_load_file euler fuel file = some (.ok s) →
      (∀ (b : Nat) (bn : bone) (p : Nat), s.bones[b]? = some bn → bn.parent = some p →
        p < b ∧ p < s.num_bones) ∧
      acyclic s.bones) := by
  have key : ∀ bones : List bone, parents_earlier bones →
      (∀ (b : Nat) (bn : bone) (p : Nat), bones[b]? = some bn → bn.parent = some p →
        p < b ∧ p < bones.length) ∧ acyclic bones := by
    intro bones h
    obtain ⟨hac, hin⟩ := acyclic_of_parent_lt bones h
    exact ⟨fun b bn p hb hp => ⟨h b p ⟨bn, hb, hp⟩, hin b p ⟨bn, hb, hp⟩⟩, hac⟩
  exact ⟨fun s hs => key s.bones (built_parents_earlier s hs),
    fun euler fuel file s h => key s.bones (loaded_parents_earlier euler fuel file s h)⟩

theorem parent_graph_invariant_witness :
    acyclic (skeleton_add_bone (skeleton_add_bone (skeleton_add_bone skeleton_new
      "a" 3 3) "b" 3 7) "c" 7 3).bones :=
  (parent_graph_invariant.1 _
    (.add_bone _ "c" 7 3 (.add_bone _ "b" 3 7 (.add_bone _ "a" 3 3 .new)))).2

/-! ## Copies and the parent graph -/

theorem skeleton_copy_bones_eq (s : skeleton) (h : parents_first s.bones) :
    (skeleton_copy s).bones = s.bones := by
  apply List.ext_getElem?
  intro i
  cases hb : s.bones[i]? with
  | none =>
    have hlen : s.bones.length ≤ i := List.getElem?_eq_none_iff.1 hb
    apply List.getElem?_eq_none
    have := skeleton_copy_num_bones s
    simp only [skeleton.num_bones] at this
    omega
  | some bn =>
    rw [skeleton_copy_bones_get s i bn hb]
    have key : skeleton_copy.link s
        { bones := s.bones.map skeleton_copy.fresh, transforms := [], inv_transforms := [] } bn =
        bn.parent := by
      unfold skeleton_copy.link
      cases hp : bn.parent with
      | none => rfl
      | some p =>
        obtain ⟨pb, hpb, hne, hfirst⟩ := h i p ⟨bn, hb, hp⟩
        simp only [hpb]
        rw [skeleton_bone_id_found _ _ hne p (skeleton_copy.fresh pb) (by simp [hpb]) rfl]
        intro j b1 hj hget
        simp only [List.getElem?_map, Option.map_eq_some'] at hget
        obtain ⟨b0, hb0, rfl⟩ := hget
        exact hfirst j b0 hj hb0
    rw [key]

theorem parents_first_of_nodup (bones : List bone) (hnodup : (bones.map bone.id).Nodup)
    (hneg : ∀ b, b ∈ bones → b.id ≠ -1) (hin : parents_inside bones) :
    parents_first bones := by
  intro b p hpar
  have hpl : p < bones.length := hin b p hpar
  have hpb : bones[p]? = some bones[p] := List.getElem?_eq_getElem hpl
  exact ⟨bones[p], hpb, hneg _ (List.getElem?_mem hpb),
    nodup_ids_first bones hnodup p _ hpb⟩

theorem add_bone_parents_first (s : skeleton) (name : String) (id parent_id : Int)
    (h : parents_first s.bones) :
    parents_first (skeleton_add_bone s name id parent_id).bones := by
  have hold : ∀ (j : Nat) (b1 : bone), s.bones[j]? = some b1 →
      (skeleton_add_bone s name id parent_id).bones[j]? = some b1 := by
    intro j b1 hj
    have hlt : j < s.bones.length := (List.getElem?_eq_some.1 hj).1
    simp only [skeleton_add_bone]
    rw [List.getElem?_append_left hlt]
    exact hj
  have hback : ∀ (j p : Nat) (b1 : bone), j < p → p < s.bones.length →
      (skeleton_add_bone s name id parent_id).bones[j]? = some b1 → s.bones[j]? = some b1 := by
    intro j p b1 hj hp hget
    simp only [skeleton_add_bone] at hget
    rw [List.getElem?_append_left (by omega)] at hget
    exact hget
  intro b p hpar
  obtain ⟨bn, hb, hp⟩ := hpar
  simp only [skeleton_add_bone] at hb
  rcases Nat.lt_or_ge b s.bones.length with hlt | hge
  · rw [List.getElem?_append_left hlt] at hb
    obtain ⟨pb, hpb, hne, hfirst⟩ := h b p ⟨bn, hb, hp⟩
    have hpl : p < s.bones.length := (List.getElem?_eq_some.1 hpb).1
    exact ⟨pb, hold p pb hpb, hne, fun j b1 hj hget => hfirst j b1 hj (hback j p b1 hj hpl hget)⟩
  · rw [List.getElem?_append_right hge] at hb
    have hb0 : b - s.bones.length = 0 := by
      by_contra hne
      obtain ⟨k, hk⟩ := Nat.exists_eq_succ_of_ne_zero hne
      rw [hk] at hb
      simp at hb
    rw [hb0] at hb
    simp only [List.getElem?_cons_zero, Option.some.injEq] at hb
    subst hb
    simp only [bone_new] at hp
    obtain ⟨hid, ⟨pb, hpb, hpid⟩, hfirst⟩ := skeleton_bone_id_some_spec s parent_id p hp
    have hpl : p < s.bones.length := (List.getElem?_eq_some.1 hpb).1
    refine ⟨pb, hold p pb hpb, by rw [hpid]; exact hid, ?_⟩
    intro j b1 hj hget
    rw [hpid]
    exact hfirst j b1 hj (hback j p b1 hj hpl hget)

theorem built_parents_first (s : skeleton) (h : built s) : parents_first s.bones := by
  induction h with
  | new =>
    intro b p hpar
    obtain ⟨bn, hb, _⟩ := hpar
    simp [skeleton_new] at hb
  | add_bone s name id parent_id _ ih => exact add_bone_parents_first s name id parent_id ih

/-! ## Recursion depth of `bone_transform` -/

theorem calls_succ_root (bones : List bone) (fuel b : Nat) (bn : bone)
    (hb : bones[b]? = some bn) (hp : bn.parent = none) :
    bone_transform.calls bones (fuel + 1) b = some 0 := by
  simp [bone_transform.calls, hb, hp]

theorem calls_succ_child (bones : List bone) (fuel b p : Nat) (bn : bone)
    (hb : bones[b]? = some bn) (hp : bn.parent = some p) :
    bone_transform.calls bones (fuel + 1) b =
      (bone_transform.calls bones fuel p).map (fun k => k + 1) := by
  simp only [bone_transform.calls, hb, hp]
  cases bone_transform.calls bones fuel p <;> rfl

theorem ancestor_chain_calls (bones : List bone) (c : List bone) (b : Nat)
    (h : ancestor_chain bones c b) :
    (∀ fuel, c.length ≤ fuel → bone_transform.calls bones fuel b = some (c.length - 1)) ∧
    (∀ fuel, fuel < c.length → bone_transform.calls bones fuel b = none ∧
      bone_transform bones fuel b = none) := by
  induction h with
  | root b bn hb hp =>
    constructor
    · intro fuel hf
      obtain ⟨j, rfl⟩ : ∃ j, fuel = j + 1 := ⟨fuel - 1, by simp at hf; omega⟩
      rw [calls_succ_root bones j b bn hb hp]
      rfl
    · intro fuel hf
      have : fuel = 0 := by simp at hf; omega
      subst this
      exact ⟨rfl, rfl⟩
  | child c p b bn hc hb hp ih =>
    have hpos := ancestor_chain_length_pos bones c p hc
    simp only [List.length_append, List.length_singleton]
    constructor
    · intro fuel hf
      obtain ⟨j, rfl⟩ : ∃ j, fuel = j + 1 := ⟨fuel - 1, by omega⟩
      rw [calls_succ_child bones j b p bn hb hp, ih.1 j (by omega)]
      simp only [Option.map_some', Option.some.injEq]
      omega
    · intro fuel hf
      cases fuel with
      | zero => exact ⟨rfl, rfl⟩
      | succ j =>
        obtain ⟨h1, h2⟩ := ih.2 j (by omega)
        rw [calls_succ_child bones j b p bn hb hp, h1,
          bone_transform_succ_child bones j b p bn hb hp, h2]
        exact ⟨rfl, rfl⟩

theorem ancestor_chain_exists (bones : List bone) (h : parents_earlier bones) :
    ∀ b, b < bones.length → ∃ c, ancestor_chain bones c b ∧ c.length ≤ b + 1 := by
  intro b
  induction b using Nat.strong_induction_on with
  | _ b ih =>
    intro hb
    have hbn : bones[b]? = some bones[b] := List.getElem?_eq_getElem hb
    cases hp : (bones[b]).parent with
    | none => exact ⟨[bones[b]], .root b _ hbn hp, by simp⟩
    | some p =>
      have hlt : p < b := h b p ⟨_, hbn, hp⟩
      obtain ⟨c, hc, hlen⟩ := ih p hlt (by omega)
      exact ⟨c ++ [bones[b]], .child c p b _ hc hbn hp, by simp; omega⟩

theorem ancestor_chain_root_length (bones : List bone) (c : List bone) (b : Nat)
    (h : ancestor_chain bones c b) (bn : bone) (hb : bones[b]? = some bn)
    (hp : bn.parent = none) : c.length = 1 := by
  cases h with
  | root b bn1 hb1 hp1 => rfl
  | child c p b bn1 hc hb1 hp1 =>
    rw [hb] at hb1
    cases hb1
    rw [hp] at hp1
    cases hp1

/-- C18: `bone_transform` terminates on every bone of every skeleton built by
`skeleton_add_bone` calls from the empty skeleton, and of every copy of such a
skeleton.  The bone at index `i` has a parent chain up to a root, of at most
`i` ancestors; `bone_transform` returns exactly when the depth bound admits
that many nested calls, and it then makes as many recursive calls as the bone
has ancestors, none for a bone without parent. -/
theorem bone_transform_recursion_depth (s : skeleton) (hs : built s) :
    ∀ t : skeleton, t = s ∨ t = skeleton_copy s → ∀ i, i < t.num_bones →
      ∃ c : List bone, ancestor_chain t.bones c i ∧ c.length - 1 ≤ i ∧
        (∀ fuel, c.length ≤ fuel →
          (∃ m, bone_transform t.bones fuel i = some m) ∧
          bone_transform.calls t.bones fuel i = some (c.length - 1)) ∧
        (∀ fuel, fuel < c.length → bone_transform t.bones fuel i = none) ∧
        (∀ bn : bone, t.bones[i]? = some bn → bn.parent = none →
          c.length = 1 ∧ ∀ fuel, bone_transform.calls t.bones (fuel + 1) i = some 0) := by
  intro t ht i hi
  have hbones : t.bones = s.bones := by
    rcases ht with rfl | rfl
    · rfl
    · exact skeleton_copy_bones_eq s (built_parents_first s hs)
  simp only [skeleton.num_bones, hbones] at hi ⊢
  obtain ⟨c, hc, hlen⟩ := ancestor_chain_exists s.bones (built_parents_earlier s hs) i hi
  obtain ⟨hcalls, hnone⟩ := ancestor_chain_calls s.bones c i hc
  refine ⟨c, hc, by omega, ?_, fun fuel hf => (hnone fuel hf).2, ?_⟩
  · intro fuel hf
    exact ⟨⟨_, bone_transform_chain s.bones c i hc fuel hf⟩, hcalls fuel hf⟩
  · intro bn hb hp
    exact ⟨ancestor_chain_root_length s.bones c i hc bn hb hp,
      fun fuel => calls_succ_root s.bones fuel i bn hb hp⟩

theorem bone_transform_recursion_depth_witness :
    ∃ c : List bone,
      ancestor_chain (skeleton_copy (skeleton_add_bone (skeleton_add_bone skeleton_new
        "root" 0 (-1)) "child" 1 0)).bones c 1 ∧ c.length - 1 ≤ 1 ∧
      (∀ fuel, c.length ≤ fuel →
        (∃ m, bone_transform (skeleton_copy (skeleton_add_bone (skeleton_add_bone skeleton_new
          "root" 0 (-1)) "child" 1 0)).bones fuel 1 = some m) ∧
        bone_transform.calls (skeleton_copy (skeleton_add_bone (skeleton_add_bone skeleton_new
          "root" 0 (-1)) "child" 1 0)).bones fuel 1 = some (c.length - 1)) :=
  have h := bone_transform_recursion_depth
    (skeleton_add_bone (skeleton_add_bone skeleton_new "root" 0 (-1)) "child" 1 0)
    (.add_bone _ "child" 1 0 (.add_bone _ "root" 0 (-1) .new))
    (skeleton_copy (skeleton_add_bone (skeleton_add_bone skeleton_new "root" 0 (-1)) "child" 1 0))
    (Or.inr rfl) 1 (by simp [skeleton_copy, skeleton_add_bone, skeleton_new, skeleton.num_bones])
  h.elim fun c hc => ⟨c, hc.1, hc.2.1, hc.2.2.1⟩

/-! ## Copying commutes with forward kinematics -/

theorem skeleton_ext (a b : skeleton) (h1 : a.bones = b.bones)
    (h2 : a.transforms = b.transforms) (h3 : a.inv_transforms = b.inv_transforms) : a = b := by
  cases a
  cases b
  simp only at h1 h2 h3
  subst h1 h2 h3
  rfl

/-- C19: copying commutes with forward kinematics.  For a skeleton with
pairwise distinct bone ids, none of them `-1`, whose parent pointers stay
inside the skeleton and form an acyclic graph, `bone_transform` of bone `i` of
the copy is `bone_transform` of bone `i` of the source, and both return; and
when the matrix arrays have `num_bones` entries,
`skeleton_gen_inv_transforms` of the copy yields the copy of what
`skeleton_gen_inv_transforms` yields for the source. -/
theorem skeleton_copy_commutes_with_transforms (s : skeleton)
    (hnodup : (s.bones.map bone.id).Nodup)
    (hneg : ∀ b, b ∈ s.bones → b.id ≠ -1)
    (hin : parents_inside s.bones) (hac : acyclic s.bones) :
    (∀ fuel i, bone_transform (skeleton_copy s).bones fuel i = bone_transform s.bones fuel i) ∧
    (∀ fuel i, s.num_bones ≤ fuel → i < s.num_bones →
      ∃ m, bone_transform (skeleton_copy s).bones fuel i = some m ∧
        bone_transform s.bones fuel i = some m) ∧
    (s.num_bones ≤ s.transforms.length → s.num_bones ≤ s.inv_transforms.length →
      ∀ fuel, s.num_bones ≤ fuel →
        ∃ a b, skeleton_gen_inv_transforms fuel (skeleton_copy s) = some a ∧
          skeleton_gen_inv_transforms fuel s = some b ∧
          a.transforms = (skeleton_copy b).transforms ∧
          a.inv_transforms = (skeleton_copy b).inv_transforms ∧
          a = skeleton_copy b) := by
  have hfirst : parents_first s.bones := parents_first_of_nodup s.bones hnodup hneg hin
  have hbones : (skeleton_copy s).bones = s.bones := skeleton_copy_bones_eq s hfirst
  have hterm : ∀ fuel i, s.num_bones ≤ fuel → i < s.num_bones →
      bone_transform s.bones fuel i ≠ none :=
    fun fuel i hf hi => bone_transform_terminates s.bones hin hac i hi fuel hf
  refine ⟨fun fuel i => by rw [hbones], ?_, ?_⟩
  · intro fuel i hf hi
    cases hq : bone_transform s.bones fuel i with
    | none => exact absurd hq (hterm fuel i hf hi)
    | some m => exact ⟨m, by rw [hbones]; exact hq, rfl⟩
  · intro hT hI fuel hf
    have hn : (skeleton_copy s).num_bones = s.num_bones := skeleton_copy_num_bones s
    have hcT : (skeleton_copy s).transforms.length = s.num_bones := by
      simp only [skeleton_copy, List.length_take]; omega
    have hcI : (skeleton_copy s).inv_transforms.length = s.num_bones := by
      simp only [skeleton_copy, List.length_take]; omega
    obtain ⟨a, ha⟩ := gen_inv_transforms_loop_total fuel (skeleton_copy s)
      (skeleton_copy s).num_bones (by omega) (by omega)
      (fun i hi => by rw [hbones]; exact hterm fuel i hf (by omega))
    obtain ⟨b, hb⟩ := gen_inv_transforms_loop_total fuel s s.num_bones hT hI
      (fun i hi => hterm fuel i hf hi)
    obtain ⟨hab, haT, haI, _, _, halt, hage⟩ := gen_inv_transforms_loop_spec fuel _ _ a ha
    obtain ⟨hbb, hbT, hbI, _, _, hblt, _⟩ := gen_inv_transforms_loop_spec fuel _ _ b hb
    have hbn : b.num_bones = s.num_bones := by simp only [skeleton.num_bones, hbb]
    have e1 : a.transforms = (skeleton_copy b).transforms := by
      apply List.ext_getElem?
      intro i
      simp only [skeleton_copy, List.getElem?_take, hbn]
      rcases Nat.lt_or_ge i s.num_bones with hi | hi
      · obtain ⟨m1, hm1, hg1, _⟩ := halt i (by omega)
        obtain ⟨m2, hm2, hg2, _⟩ := hblt i hi
        rw [hbones] at hm1
        rw [hm1] at hm2
        cases hm2
        rw [if_pos hi, hg1, hg2]
      · rw [if_neg (by omega)]
        apply List.getElem?_eq_none
        omega
    have e2 : a.inv_transforms = (skeleton_copy b).inv_transforms := by
      apply List.ext_getElem?
      intro i
      simp only [skeleton_copy, List.getElem?_take, hbn]
      rcases Nat.lt_or_ge i s.num_bones with hi | hi
      · obtain ⟨m1, hm1, _, hg1⟩ := halt i (by omega)
        obtain ⟨m2, hm2, _, hg2⟩ := hblt i hi
        rw [hbones] at hm1
        rw [hm1] at hm2
        cases hm2
        rw [if_pos hi, hg1, hg2]
      · rw [if_neg (by omega)]
        apply List.getElem?_eq_none
        omega
    have e0 : a.bones = (skeleton_copy b).bones := by
      rw [hab, hbones, skeleton_copy_bones_eq b (by rw [hbb]; exact hfirst), hbb]
    exact ⟨a, b, ha, hb, e1, e2, skeleton_ext a _ e0 e1 e2⟩

theorem skeleton_copy_commutes_with_transforms_witness :
    ∃ a b, skeleton_gen_inv_transforms 3 (skeleton_copy ex_chain) = some a ∧
      skeleton_gen_inv_transforms 3 ex_chain = some b ∧
      a.transforms = (skeleton_copy b).transforms ∧
      a.inv_transforms = (skeleton_copy b).inv_transforms ∧
      a = skeleton_copy b :=
  (skeleton_copy_commutes_with_transforms ex_chain ex_chain_ids_nodup ex_chain_ids_ne_sentinel
    (acyclic_of_parent_lt ex_chain.bones ex_chain_parent_lt).2
    (acyclic_of_parent_lt ex_chain.bones ex_chain_parent_lt).1).2.2
    (Nat.le_refl 3) (Nat.le_refl 3) 3 (Nat.le_refl 3)

/-! ## The loader loop -/

theorem lines_append (euler : rotation_euler) (l1 l2 : List String) :
    ∀ (state : Int) (s : skeleton),
      skl_load_file.lines euler state s (l1 ++ l2) =
        match skl_load_file.lines euler state s l1 with
        | .error e => .error e
        | .not_finite => .not_finite
        | .ok (state1, s1) => skl_load_file.lines euler state1 s1 l2 := by
  induction l1 with
  | nil => intro state s; rfl
  | cons line rest ih =>
    intro state s
    simp only [List.cons_append, skl_load_file.lines]
    cases skl_load_file.line euler state s line.toList with
    | error e => rfl
    | not_finite => rfl
    | ok r => exact ih r.1 r.2

theorem line_cases (euler : rotation_euler) (state state1 : Int) (s s1 : skeleton)
    (line : List Char) (h : skl_load_file.line euler state s line = .ok (state1, s1)) :
    s1 = s ∨ (∃ name id parent_id, s1 = skeleton_add_bone s name id parent_id) ∨
      ∃ b x y z rx ry rz, s1 = skl_load_file.pose euler s b x y z rx ry rz := by
  unfold skl_load_file.line at h
  split at h
  · unfold skl_load_file.in_empty at h
    split at h
    · split at h
      · cases h
      · simp only [outcome.ok.injEq, Prod.mk.injEq] at h
        exact Or.inl h.2.symm
    · simp only [outcome.ok.injEq, Prod.mk.injEq] at h
      exact Or.inl h.2.symm
  · split at h
    · unfold skl_load_file.in_nodes at h
      simp only [outcome.ok.injEq, Prod.mk.injEq] at h
      rw [← h.2]
      split
      · exact Or.inr (Or.inl ⟨_, _, _, rfl⟩)
      · exact Or.inl rfl
    · split at h
      · unfold skl_load_file.in_skeleton at h
        split at h
        · split at h
          · cases h
          · split at h
            · simp only [outcome.ok.injEq, Prod.mk.injEq] at h
              exact Or.inr (Or.inr ⟨_, _, _, _, _, _, _, h.2.symm⟩)
            · cases h
        · simp only [outcome.ok.injEq, Prod.mk.injEq] at h
          exact Or.inl h.2.symm
      · simp only [outcome.ok.injEq, Prod.mk.injEq] at h
        exact Or.inl h.2.symm

theorem lines_invariant (P : skeleton → Prop) (euler : rotation_euler)
    (hadd : ∀ s name id parent_id, P s → P (skeleton_add_bone s name id parent_id))
    (hpose : ∀ s b x y z rx ry rz, P s → P (skl_load_file.pose euler s b x y z rx ry rz))
    (lines : List String) :
    ∀ (state state1 : Int) (s s1 : skeleton),
      skl_load_file.lines euler state s lines = .ok (state1, s1) → P s → P s1 := by
  induction lines with
  | nil =>
    intro state state1 s s1 h hs
    simp only [skl_load_file.lines, outcome.ok.injEq, Prod.mk.injEq] at h
    rw [← h.2]; exact hs
  | cons line rest ih =>
    intro state state1 s s1 h hs
    simp only [skl_load_file.lines] at h
    cases hq : skl_load_file.line euler state s line.toList with
    | error e => rw [hq] at h; cases h
    | not_finite => rw [hq] at h; cases h
    | ok r =>
      obtain ⟨state2, s2⟩ := r
      rw [hq] at h
      refine ih state2 state1 s2 s1 h ?_
      rcases line_cases euler state state2 s s2 _ hq with rfl | ⟨n, i, p, rfl⟩ |
        ⟨b, x, y, z, rx, ry, rz, rfl⟩
      · exact hs
      · exact hadd _ _ _ _ hs
      · exact hpose _ _ _ _ _ _ _ _ hs

theorem lines_aligned (euler : rotation_euler) (lines : List String) (state : Int)
    (s : skeleton)
    (h : skl_load_file.lines euler state_load_empty skeleton_new lines = .ok (state, s)) :
    s.transforms.length = s.num_bones ∧ s.inv_transforms.length = s.num_bones := by
  refine lines_invariant
    (fun s => s.transforms.length = s.num_bones ∧ s.inv_transforms.length = s.num_bones)
    euler ?_ ?_ lines _ _ _ _ h ⟨rfl, rfl⟩
  · intro s name id parent_id hs
    simp only [skeleton_add_bone, skeleton.num_bones, List.length_append,
      List.length_singleton] at hs ⊢
    omega
  · intro s b x y z rx ry rz hs
    simpa [skl_load_file.pose, skeleton.num_bones] using hs

theorem skl_load_file_returns (euler : rotation_euler) (lines : List String) (state : Int)
    (s : skeleton)
    (h : skl_load_file.lines euler state_load_empty skeleton_new lines = .ok (state, s))
    (fuel : Nat) (hf : s.num_bones ≤ fuel) :
    ∃ s1, skl_load_file euler fuel (some lines) = some (.ok s1) ∧
      skeleton_gen_inv_transforms fuel s = some s1 ∧ s1.bones = s.bones := by
  obtain ⟨hT, hI⟩ := lines_aligned euler lines state s h
  have hpe : parents_earlier s.bones :=
    lines_parents_earlier euler lines _ _ _ _ h skeleton_new_parents_earlier
  obtain ⟨hac, hin⟩ := acyclic_of_parent_lt s.bones hpe
  obtain ⟨s1, h1⟩ := gen_inv_transforms_loop_total fuel s s.num_bones (by omega) (by omega)
    (fun i hi => bone_transform_terminates s.bones hin hac i hi fuel hf)
  refine ⟨s1, ?_, h1, (gen_inv_transforms_loop_spec fuel s _ s1 h1).1⟩
  have h1' : skeleton_gen_inv_transforms fuel s = some s1 := h1
  simp only [skl_load_file, h, h1']

theorem numeral_float_small (negative : Bool) (digits base : Nat) (h : digits < 1000) :
    numeral.float
        (some { negative := negative, digits := digits, base := base, exponent := 0 }) =
      some (if negative then -(digits : ℚ) else (digits : ℚ)) := by
  have hd : (digits : ℚ) < 1000 := by exact_mod_cast h
  have h0 : (0 : ℚ) ≤ (digits : ℚ) := Nat.cast_nonneg _
  have hv : numeral.value
      { negative := negative, digits := digits, base := base, exponent := 0 } =
      (if negative then -(digits : ℚ) else (digits : ℚ)) := by
    cases negative <;> simp [numeral.value]
  simp only [numeral.float, hv]
  rw [if_pos]
  unfold float_overflow
  cases negative
  · simp only [Bool.false_eq_true, if_false, abs_of_nonneg h0]
    linarith
  · simp only [if_true, abs_neg, abs_of_nonneg h0]
    linarith

theorem ex_pose_root :
    sscanf_pose "0 0 0 0 0 0 0".toList = some (pose.finite 0 0 0 0 0 0 0) := by
  have h1 : scan_int "0 0 0 0 0 0 0".toList = some (0, " 0 0 0 0 0 0".toList) := rfl
  have h2 : scan_floats 6 " 0 0 0 0 0 0".toList =
      some [some ⟨false, 0, 10, 0⟩, some ⟨false, 0, 10, 0⟩, some ⟨false, 0, 10, 0⟩,
        some ⟨false, 0, 10, 0⟩, some ⟨false, 0, 10, 0⟩, some ⟨false, 0, 10, 0⟩] := rfl
  unfold sscanf_pose
  rw [h1]
  simp only
  rw [h2]
  simp [numeral_float_small, pose.finite]

theorem ex_pose_child :
    sscanf_pose "1 1 2 3 0 0 0".toList = some (pose.finite 1 1 2 3 0 0 0) := by
  have h1 : scan_int "1 1 2 3 0 0 0".toList = some (1, " 1 2 3 0 0 0".toList) := rfl
  have h2 : scan_floats 6 " 1 2 3 0 0 0".toList =
      some [some ⟨false, 1, 10, 0⟩, some ⟨false, 2, 10, 0⟩, some ⟨false, 3, 10, 0⟩,
        some ⟨false, 0, 10, 0⟩, some ⟨false, 0, 10, 0⟩, some ⟨false, 0, 10, 0⟩] := rfl
  unfold sscanf_pose
  rw [h1]
  simp only
  rw [h2]
  simp [numeral_float_small, pose.finite]

/-- The `int` stored by `%i` is the low 32 bits of the `long` read: as an id,
`4294967295` is `-1` and `2147483648` is `-2147483648`; as a version,
`4294967297` is 1.  Octal and hexadecimal numbers are read as such. -/
theorem scan_int_stores_int :
    sscanf_node "4294967295 ghost -1".toList = some (-1, "ghost", -1) ∧
    sscanf_node "2147483648 big -1".toList = some (-2147483648, "big", -1) ∧
    sscanf_node "2147483647 top 010".toList = some (2147483647, "top", 8) ∧
    sscanf_node "0x1F hex -0x1".toList = some (31, "hex", -1) ∧
    sscanf_version "version 4294967297".toList = some 1 ∧
    sscanf_version "version 4294967298".toList = some 2 ∧
    Option.map pose.id (sscanf_pose "4294967295 1 2 3 0 0 0".toList) = some (-1) :=
  ⟨rfl, rfl, rfl, rfl, rfl, rfl, rfl⟩

/-- A `%f` field in hexadecimal notation is read as such: the pose line
`1 1 2 3 0 0 0x10` has `rz = 16`. -/
theorem ex_pose_hexadecimal :
    sscanf_pose "1 1 2 3 0 0 0x10".toList = some (pose.finite 1 1 2 3 0 0 16) := by
  have h1 : scan_int "1 1 2 3 0 0 0x10".toList = some (1, " 1 2 3 0 0 0x10".toList) := rfl
  have h2 : scan_floats 6 " 1 2 3 0 0 0x10".toList =
      some [some ⟨false, 1, 10, 0⟩, some ⟨false, 2, 10, 0⟩, some ⟨false, 3, 10, 0⟩,
        some ⟨false, 0, 10, 0⟩, some ⟨false, 0, 10, 0⟩, some ⟨false, 16, 2, 0⟩] := rfl
  unfold sscanf_pose
  rw [h1]
  simp only
  rw [h2]
  simp [numeral_float_small, pose.finite]

/-- A `%f` field may be an infinity or a NaN, spelled or by overflow: the line
is a pose line, the `float` stored is not finite, and a load that stores it in
a bone is not followed further. -/
theorem ex_pose_not_finite :
    Option.map pose.x (sscanf_pose "0 inf 0 0 0 0 0".toList) = some none ∧
    Option.map pose.rz (sscanf_pose "0 0 0 0 0 0 -NaN".toList) = some none ∧
    Option.map pose.x (sscanf_pose "0 INFINITY 0 0 0 0 0".toList) = some none ∧
    skl_load_file ex_euler 1 (some ex_file_infinite) = some .not_finite :=
  ⟨rfl, rfl, rfl, rfl⟩

theorem ex_file_lines (euler : rotation_euler) :
    skl_load_file.lines euler state_load_empty skeleton_new ex_file =
      .ok (state_load_empty, ex_loaded euler) := by
  have p0 := ex_pose_root
  have p1 := ex_pose_child
  have e1 : skl_load_file.lines euler state_load_empty skeleton_new
      ["version 1", "nodes", "0 root -1", "1 child 0", "end", "skeleton"] =
      .ok (state_load_skeleton,
        skeleton_add_bone (skeleton_add_bone skeleton_new "root" 0 (-1)) "child" 1 0) := rfl
  have e2 : ∀ s : skeleton, (skeleton_bone_id s 0).1 = some 0 →
      skl_load_file.line euler state_load_skeleton s "0 0 0 0 0 0 0".toList =
        .ok (state_load_skeleton, skl_load_file.pose euler s 0 0 0 0 0 0 0) := by
    intro s hs
    have hend : strstr "0 0 0 0 0 0 0".toList "end".toList = false := rfl
    have hst : state_load_skeleton ≠ state_load_empty ∧ state_load_skeleton ≠ state_load_nodes :=
      ⟨by decide, by decide⟩
    simp only [skl_load_file.line, hst.1, hst.2, if_false, if_true, skl_load_file.in_skeleton,
      p0, pose.finite, hs, hend]
    rfl
  have e3 : ∀ s : skeleton, (skeleton_bone_id s 1).1 = some 1 →
      skl_load_file.line euler state_load_skeleton s "1 1 2 3 0 0 0".toList =
        .ok (state_load_skeleton, skl_load_file.pose euler s 1 1 2 3 0 0 0) := by
    intro s hs
    have hend : strstr "1 1 2 3 0 0 0".toList "end".toList = false := rfl
    have hst : state_load_skeleton ≠ state_load_empty ∧ state_load_skeleton ≠ state_load_nodes :=
      ⟨by decide, by decide⟩
    simp only [skl_load_file.line, hst.1, hst.2, if_false, if_true, skl_load_file.in_skeleton,
      p1, pose.finite, hs, hend]
    rfl
  have e4 : ∀ s : skeleton, skl_load_file.line euler state_load_skeleton s "end".toList =
      .ok (state_load_empty, s) := fun s => rfl
  have split : ex_file = ["version 1", "nodes", "0 root -1", "1 child 0", "end", "skeleton"] ++
      ["0 0 0 0 0 0 0", "1 1 2 3 0 0 0", "end"] := rfl
  rw [split, lines_append, e1]
  simp only [skl_load_file.lines]
  rw [e2 (skeleton_add_bone (skeleton_add_bone skeleton_new "root" 0 (-1)) "child" 1 0) rfl]
  simp only
  rw [e3 (skl_load_file.pose euler
    (skeleton_add_bone (skeleton_add_bone skeleton_new "root" 0 (-1)) "child" 1 0)
    0 0 0 0 0 0 0) rfl]
  simp only
  rw [e4]
  rfl

/-! ## The loaded skeleton -/

theorem loaded_populated (euler : rotation_euler) (fuel : Nat)
    (file : Option (List String)) (s : skeleton)
    (h : skl_load_file euler fuel file = some (.ok s)) :
    ∀ i, i < s.num_bones → ∃ m, bone_transform s.bones fuel i = some m ∧
      s.transforms[i]? = some m ∧ s.inv_transforms[i]? = some (m44_inverse m) := by
  obtain ⟨lines, state, s0, _, _, hg⟩ := skl_load_file_ok_spec euler fuel file s h
  obtain ⟨hb, _, _, _, _, hlt, _⟩ := gen_inv_transforms_loop_spec fuel s0 _ s hg
  intro i hi
  simp only [skeleton.num_bones, hb] at hi ⊢
  exact hlt i hi

/-- C17: the skeleton returned by `skl_load_file` is fully populated.  Whenever
the loader returns a skeleton, entry `i` of `transforms` is `bone_transform` of
bone `i` and entry `i` of `inv_transforms` is `m44_inverse` of it; the loader
returns as soon as the loop over the lines ends without failure, with the
bones as the whole input left them; and for the two-bone example of the
specification the transform of bone 1 is the transform of bone 0 times the
translation by (1, 3, 2) times the identity. -/
theorem skl_load_file_populated (euler : rotation_euler) :
    (∀ (fuel : Nat) (file : Option (List String)) (s : skeleton),
      skl_load_file euler fuel file = some (.ok s) →
      ∀ i, i < s.num_bones → ∃ m, bone_transform s.bones fuel i = some m ∧
        s.transforms[i]? = some m ∧ s.inv_transforms[i]? = some (m44_inverse m)) ∧
    (∀ (lines : List String) (state : Int) (s0 : skeleton),
      skl_load_file.lines euler state_load_empty skeleton_new lines = .ok (state, s0) →
      ∀ fuel, s0.num_bones ≤ fuel →
        ∃ s, skl_load_file euler fuel (some lines) = some (.ok s) ∧ s.bones = s0.bones) ∧
    (euler 0 0 0 = m44_id → ∀ fuel, 2 ≤ fuel →
      ∃ s m0 m1, skl_load_file euler fuel (some ex_file) = some (.ok s) ∧
        s.num_bones = 2 ∧
        s.transforms[0]? = some m0 ∧ s.transforms[1]? = some m1 ∧
        m1 = m44_mul_m44 (m44_mul_m44 m0 (m44_translation (v3 1 3 2))) m44_id) := by
  refine ⟨loaded_populated euler, ?_, ?_⟩
  · intro lines state s0 h fuel hf
    obtain ⟨s, hs, _, hb⟩ := skl_load_file_returns euler lines state s0 h fuel hf
    exact ⟨s, hs, hb⟩
  · intro he fuel hf
    obtain ⟨s, hs, _, hb⟩ := skl_load_file_returns euler ex_file _ _ (ex_file_lines euler) fuel hf
    have hn : s.num_bones = 2 := by
      simp only [skeleton.num_bones, hb]
      rfl
    obtain ⟨m0, hm0, ht0, _⟩ := loaded_populated euler fuel _ s hs 0 (by omega)
    obtain ⟨m1, hm1, ht1, _⟩ := loaded_populated euler fuel _ s hs 1 (by omega)
    refine ⟨s, m0, m1, hs, hn, ht0, ht1, ?_⟩
    obtain ⟨j, rfl⟩ : ∃ j, fuel = j + 1 := ⟨fuel - 1, by omega⟩
    rw [hb] at hm0 hm1
    have hbone : (ex_loaded euler).bones[1]? =
        some { id := 1, name := "child", position := v3 1 3 2,
               rotation := skl_load_file.convert (euler 0 0 0), parent := some 0 } := rfl
    rw [bone_transform_succ_child _ j 1 0 _ hbone rfl] at hm1
    have hroot : bone_transform (ex_loaded euler).bones j 0 = some m0 := by
      cases hq : bone_transform (ex_loaded euler).bones j 0 with
      | none => rw [hq] at hm1; cases hm1
      | some m =>
        rw [bone_transform_mono _ j 0 m hq (j + 1) (by omega)] at hm0
        rw [hm0]
    rw [hroot] at hm1
    simp only [Option.map_some', Option.some.injEq] at hm1
    rw [← hm1, he]
    have hc : skl_load_file.convert m44_id = m44_id := by
      rw [convert_eq]
      simp only [m44_id, Matrix.mul_one, handedflip_mul_self, Matrix.transpose_one]
    rw [hc]
    rfl

theorem skl_load_file_populated_witness :
    ∃ s m0 m1, skl_load_file ex_euler 2 (some ex_file) = some (.ok s) ∧
      s.num_bones = 2 ∧
      s.transforms[0]? = some m0 ∧ s.transforms[1]? = some m1 ∧
      m1 = m44_mul_m44 (m44_mul_m44 m0 (m44_translation (v3 1 3 2))) m44_id :=
  (skl_load_file_populated ex_euler).2.2 rfl 2 (Nat.le_refl 2)

/-! ## Pose lines -/

theorem line_in_skeleton (euler : rotation_euler) (s : skeleton) (line : List Char) :
    skl_load_file.line euler state_load_skeleton s line =
      skl_load_file.in_skeleton euler state_load_skeleton s line := by
  have h1 : state_load_skeleton ≠ state_load_empty := by decide
  have h2 : state_load_skeleton ≠ state_load_nodes := by decide
  simp only [skl_load_file.line, h1, h2, if_false, if_true]

theorem line_in_nodes (euler : rotation_euler) (s : skeleton) (line : List Char) :
    skl_load_file.line euler state_load_nodes s line =
      skl_load_file.in_nodes state_load_nodes s line := by
  have h1 : state_load_nodes ≠ state_load_empty := by decide
  simp only [skl_load_file.line, h1, if_false, if_true]

theorem line_in_empty (euler : rotation_euler) (s : skeleton) (line : List Char) :
    skl_load_file.line euler state_load_empty s line =
      skl_load_file.in_empty state_load_empty s line := by
  simp only [skl_load_file.line, if_true]

theorem in_skeleton_found (euler : rotation_euler) (s : skeleton) (line : List Char)
    (id : Int) (x y z rx ry rz : ℚ) (b : Nat)
    (hscan : sscanf_pose line = some (pose.finite id x y z rx ry rz))
    (hb : (skeleton_bone_id s id).1 = some b) :
    skl_load_file.line euler state_load_skeleton s line =
      .ok (if strstr line "end".toList then state_load_empty else state_load_skeleton,
        skl_load_file.pose euler s b x y z rx ry rz) := by
  rw [line_in_skeleton]
  simp only [skl_load_file.in_skeleton, hscan, pose.finite, hb]

theorem in_skeleton_missing (euler : rotation_euler) (s : skeleton) (line : List Char)
    (p : pose) (hscan : sscanf_pose line = some p)
    (hb : (skeleton_bone_id s p.id).1 = none) :
    skl_load_file.line euler state_load_skeleton s line = .error .null_dereference := by
  rw [line_in_skeleton]
  simp only [skl_load_file.in_skeleton, hscan, hb]

/-- C13, as stated, fails for the id `-1`: with one declared bone whose id is
`-1`, the line `-1 0 0 0 0 0 0` parses as a pose line with that id, and the
loop body ends in the write through a null pointer without giving any bone a
position. -/
theorem pose_line_sentinel_id_fails :
    List.map bone.id (skeleton_add_bone skeleton_new "root" (-1) (-1)).bones = [-1] ∧
    Option.map pose.id (sscanf_pose "-1 0 0 0 0 0 0".toList) = some (-1) ∧
    skl_load_file.line ex_euler state_load_skeleton
      (skeleton_add_bone skeleton_new "root" (-1) (-1)) "-1 0 0 0 0 0 0".toList =
      .error .null_dereference ∧
    skl_load_file ex_euler 1 (some ex_file_sentinel) = some (.error .null_dereference) :=
  ⟨rfl, rfl, rfl, rfl⟩

/-- C13, amended: in the SKELETON state, a line that parses as an id other
than `-1` (the value stored in the `int`) followed by six finite numbers
`x, y, z, rx, ry, rz`, where the id is that of a declared bone, gives the
first bone with that id the position `(x, z, y)` and the rotation
`transpose(F * E * F)`, with `E` the Euler rotation of `(rx, ry, rz)` and `F`
the matrix `handedflip`; the id, name and parent of that bone, every other
bone, the bone count and both matrix arrays are unchanged. -/
theorem pose_line_application (euler : rotation_euler) (s : skeleton) (line : List Char)
    (id : Int) (x y z rx ry rz : ℚ)
    (hscan : sscanf_pose line = some (pose.finite id x y z rx ry rz))
    (hid : id ≠ -1)
    (i : Nat) (bn : bone) (hb : s.bones[i]? = some bn) (hbid : bn.id = id)
    (hfirst : ∀ (j : Nat) (b1 : bone), j < i → s.bones[j]? = some b1 → b1.id ≠ id) :
    ∃ state1 s1, skl_load_file.line euler state_load_skeleton s line = .ok (state1, s1) ∧
      s1.bones[i]? = some
        { id := bn.id, name := bn.name, position := v3 x z y,
          rotation := m44_transpose
            (m44_mul_m44 (m44_mul_m44 handedflip (euler rx ry rz)) handedflip),
          parent := bn.parent } ∧
      (∀ j, j ≠ i → s1.bones[j]? = s.bones[j]?) ∧
      s1.num_bones = s.num_bones ∧
      s1.transforms = s.transforms ∧ s1.inv_transforms = s.inv_transforms := by
  have hlook : (skeleton_bone_id s id).1 = some i := by
    rw [skeleton_bone_id_found s id hid i bn hb hbid hfirst]
  refine ⟨_, _, in_skeleton_found euler s line id x y z rx ry rz i hscan hlook, ?_, ?_, ?_,
    rfl, rfl⟩
  · rw [pose_getElem?, hb]
    simp only [Option.map_some', if_true]
    rfl
  · intro j hj
    rw [pose_getElem?]
    cases s.bones[j]? with
    | none => rfl
    | some b1 => simp only [Option.map_some', if_neg (Ne.symm hj)]
  · simp [skl_load_file.pose, skeleton.num_bones]

theorem pose_line_application_witness :
    ∃ state1 s1, skl_load_file.line ex_euler state_load_skeleton
        (skeleton_add_bone (skeleton_add_bone skeleton_new "root" 0 (-1)) "child" 1 0)
        "1 1 2 3 0 0 0".toList = .ok (state1, s1) ∧
      s1.bones[1]? = some
        { id := 1, name := "child", position := v3 1 3 2,
          rotation := m44_transpose
            (m44_mul_m44 (m44_mul_m44 handedflip (ex_euler 0 0 0)) handedflip),
          parent := some 0 } ∧
      (∀ j, j ≠ 1 → s1.bones[j]? =
        (skeleton_add_bone (skeleton_add_bone skeleton_new "root" 0 (-1)) "child" 1 0).bones[j]?) ∧
      s1.num_bones =
        (skeleton_add_bone (skeleton_add_bone skeleton_new "root" 0 (-1)) "child" 1 0).num_bones ∧
      s1.transforms =
        (skeleton_add_bone (skeleton_add_bone skeleton_new "root" 0 (-1)) "child" 1 0).transforms ∧
      s1.inv_transforms =
        (skeleton_add_bone (skeleton_add_bone skeleton_new "root" 0 (-1))
          "child" 1 0).inv_transforms :=
  pose_line_application ex_euler
    (skeleton_add_bone (skeleton_add_bone skeleton_new "root" 0 (-1)) "child" 1 0)
    "1 1 2 3 0 0 0".toList 1 1 2 3 0 0 0 ex_pose_child (by decide) 1
    { id := 1, name := "child", position := v3_zero, rotation := m44_id, parent := some 0 }
    rfl rfl
    (fun j b1 hj hget => by
      have hj0 : j = 0 := by omega
      subst hj0
      have h0 : (skeleton_add_bone (skeleton_add_bone skeleton_new "root" 0 (-1))
          "child" 1 0).bones[0]? = some (bone_new 0 "root") := rfl
      rw [h0] at hget
      cases hget
      decide)

/-- C14: on the rig file `ex_file_unknown`, whose only bone has the id 0 and
whose pose line names the id 5, `skeleton_bone_id` reports the unknown id and
returns no bone, and the loader, instead of skipping the line, writes through
that null pointer and returns no skeleton. -/
theorem unknown_pose_id_null_dereference :
    skl_load_file.lines ex_euler state_load_empty skeleton_new
        ["version 1", "nodes", "0 root -1", "end", "skeleton"] =
      .ok (state_load_skeleton, skeleton_add_bone skeleton_new "root" 0 (-1)) ∧
    Option.map pose.id (sscanf_pose "5 0 0 0 0 0 0".toList) = some 5 ∧
    skeleton_bone_id (skeleton_add_bone skeleton_new "root" 0 (-1)) 5 = (none, [5]) ∧
    skl_load_file.line ex_euler state_load_skeleton
        (skeleton_add_bone skeleton_new "root" 0 (-1)) "5 0 0 0 0 0 0".toList =
      .error .null_dereference ∧
    skl_load_file ex_euler 1 (some ex_file_unknown) = some (.error .null_dereference) :=
  ⟨rfl, rfl, rfl, rfl, rfl⟩

/-! ## Version declarations -/

theorem line_no_nodes (euler : rotation_euler) (state state1 : Int) (s s1 : skeleton)
    (line : List Char) (hl : strstr line "nodes".toList = false)
    (hst : state ≠ state_load_nodes)
    (h : skl_load_file.line euler state s line = .ok (state1, s1)) :
    state1 ≠ state_load_nodes ∧ s1.num_bones = s.num_bones := by
  have h20 : state_load_skeleton ≠ state_load_nodes := by decide
  have h00 : state_load_empty ≠ state_load_nodes := by decide
  unfold skl_load_file.line at h
  split at h
  · rename_i he
    unfold skl_load_file.in_empty at h
    split at h
    · split at h
      · cases h
      · simp only [hl, if_false, outcome.ok.injEq, Prod.mk.injEq, Bool.false_eq_true] at h
        rw [← h.1, ← h.2]
        refine ⟨?_, rfl⟩
        split
        · exact h20
        · exact hst
    · simp only [hl, if_false, outcome.ok.injEq, Prod.mk.injEq, Bool.false_eq_true] at h
      rw [← h.1, ← h.2]
      refine ⟨?_, rfl⟩
      split
      · exact h20
      · exact hst
  · split at h
    · unfold skl_load_file.in_skeleton at h
      split at h
      · split at h
        · cases h
        · split at h
          · simp only [outcome.ok.injEq, Prod.mk.injEq] at h
            rw [← h.1, ← h.2]
            refine ⟨?_, by simp [skl_load_file.pose, skeleton.num_bones]⟩
            split
            · exact h00
            · exact hst
          · cases h
      · simp only [outcome.ok.injEq, Prod.mk.injEq] at h
        rw [← h.1, ← h.2]
        refine ⟨?_, rfl⟩
        split
        · exact h00
        · exact hst
    · simp only [outcome.ok.injEq, Prod.mk.injEq] at h
      rw [← h.1, ← h.2]
      exact ⟨hst, rfl⟩

theorem lines_no_nodes (euler : rotation_euler) (lines : List String)
    (hl : ∀ l, l ∈ lines → strstr l.toList "nodes".toList = false) :
    ∀ (state state1 : Int) (s s1 : skeleton), state ≠ state_load_nodes →
      skl_load_file.lines euler state s lines = .ok (state1, s1) →
      state1 ≠ state_load_nodes ∧ s1.num_bones = s.num_bones := by
  induction lines with
  | nil =>
    intro state state1 s s1 hst h
    simp only [skl_load_file.lines, outcome.ok.injEq, Prod.mk.injEq] at h
    rw [← h.1, ← h.2]
    exact ⟨hst, rfl⟩
  | cons line rest ih =>
    intro state state1 s s1 hst h
    simp only [skl_load_file.lines] at h
    cases hq : skl_load_file.line euler state s line.toList with
    | error e => rw [hq] at h; cases h
    | not_finite => rw [hq] at h; cases h
    | ok r =>
      obtain ⟨state2, s2⟩ := r
      rw [hq] at h
      obtain ⟨h1, h2⟩ := line_no_nodes euler state state2 s s2 _
        (hl line (List.mem_cons_self _ _)) hst hq
      obtain ⟨h3, h4⟩ := ih (fun l hm => hl l (List.mem_cons_of_mem _ hm)) state2 state1 s2 s1 h1 h
      exact ⟨h3, by rw [h4, h2]⟩

/-- C15, as stated, fails: the line `version 4294967297` is a version
declaration with a number other than 1, but the `int` that `sscanf` stores for
it is 1, the line passes the version test, and the rig file `ex_file_wrapped`
that starts with it is loaded without failure, into a skeleton of one bone. -/
theorem version_beyond_int_is_loaded :
    ex_file_wrapped = ["version 4294967297", "nodes", "0 root -1", "end"] ∧
    sscanf_version "version 4294967297".toList = some 1 ∧
    skl_load_file.line ex_euler state_load_empty skeleton_new "version 4294967297".toList =
      .ok (state_load_empty, skeleton_new) ∧
    ∃ s, skl_load_file ex_euler 1 (some ex_file_wrapped) = some (.ok s) ∧ s.num_bones = 1 := by
  refine ⟨rfl, rfl, rfl, ?_⟩
  have hl : skl_load_file.lines ex_euler state_load_empty skeleton_new ex_file_wrapped =
      .ok (state_load_empty, skeleton_add_bone skeleton_new "root" 0 (-1)) := rfl
  obtain ⟨s, hs, _, hb⟩ := skl_load_file_returns ex_euler ex_file_wrapped _ _ hl 1 (by decide)
  exact ⟨s, hs, by simp only [skeleton.num_bones, hb]; rfl⟩

/-- C15, amended: versions other than 1 are fatal, the version being the value
that `sscanf` stores in the `int` (the low 32 bits of the `long` read).  When
a line read in the EMPTY state is a version declaration for which that value
is not 1, `skl_load_file` ends in the fatal error for that version and returns
no skeleton; when no earlier line contains `nodes`, no bone has been added by
then; and a declaration `version 1` neither fails nor changes the parser state
or the skeleton. -/
theorem unsupported_version_fatal (euler : rotation_euler) :
    (∀ (pre post : List String) (line : String) (n : Int) (s : skeleton) (fuel : Nat),
      skl_load_file.lines euler state_load_empty skeleton_new pre = .ok (state_load_empty, s) →
      sscanf_version line.toList = some n → n ≠ 1 →
      skl_load_file euler fuel (some (pre ++ line :: post)) =
        some (.error (.unknown_version n)) ∧
      ((∀ l, l ∈ pre → strstr l.toList "nodes".toList = false) → s.num_bones = 0)) ∧
    (∀ (post : List String) (fuel : Nat),
      skl_load_file euler fuel (some ("version 2" :: post)) =
        some (.error (.unknown_version 2))) ∧
    (∀ (line : List Char) (s : skeleton), sscanf_version line = some 1 →
      strstr line "nodes".toList = false → strstr line "skeleton".toList = false →
      skl_load_file.line euler state_load_empty s line = .ok (state_load_empty, s)) ∧
    (∀ s : skeleton,
      skl_load_file.line euler state_load_empty s "version 1".toList =
        .ok (state_load_empty, s)) := by
  refine ⟨?_, fun post fuel => rfl, ?_, fun s => rfl⟩
  · intro pre post line n s fuel hpre hver hn
    constructor
    · have hline : skl_load_file.line euler state_load_empty s line.toList =
          .error (.unknown_version n) := by
        rw [line_in_empty]
        simp only [skl_load_file.in_empty, hver, hn, ne_eq, not_false_eq_true, if_true]
      simp only [skl_load_file, lines_append, hpre, skl_load_file.lines, hline]
    · intro hno
      have := (lines_no_nodes euler pre hno state_load_empty state_load_empty skeleton_new s
        (by decide) hpre).2
      rw [this]
      rfl
  · intro line s hver hn hs
    rw [line_in_empty]
    simp only [skl_load_file.in_empty, hver, hn, hs]
    rfl

theorem unsupported_version_fatal_witness :
    skl_load_file ex_euler 0 (some (["skeleton", "end"] ++ "version 3" :: ["nodes"])) =
      some (.error (.unknown_version 3)) ∧
    skeleton_new.num_bones = 0 :=
  have h := (unsupported_version_fatal ex_euler).1 ["skeleton", "end"] ["nodes"] "version 3" 3
    skeleton_new 0 rfl rfl (by decide)
  ⟨h.1, h.2 (fun l hl => by
    simp only [List.mem_cons, List.mem_singleton, List.not_mem_nil, or_false] at hl
    rcases hl with rfl | rfl <;> rfl)⟩

/-! ## Bone ids of loaded skeletons -/

theorem pose_ids (euler : rotation_euler) (s : skeleton) (b : Nat) (x y z rx ry rz : ℚ) :
    (skl_load_file.pose euler s b x y z rx ry rz).bones.map bone.id = s.bones.map bone.id := by
  apply List.ext_getElem?
  intro i
  rw [List.getElem?_map, List.getElem?_map, pose_getElem?]
  cases s.bones[i]? with
  | none => rfl
  | some bn =>
    by_cases hbi : b = i
    · simp [hbi]
    · simp [hbi]

theorem line_declared (euler : rotation_euler) (state state1 : Int) (s s1 : skeleton)
    (line : String) (rest : List String)
    (h : skl_load_file.line euler state s line.toList = .ok (state1, s1)) :
    ∃ X : List (Int × String × Int),
      declared_nodes state (line :: rest) = X ++ declared_nodes state1 rest ∧
      s1.bones.map bone.id = s.bones.map bone.id ++ X.map Prod.fst := by
  unfold skl_load_file.line at h
  by_cases he : state = state_load_empty
  · rw [if_pos he] at h
    refine ⟨[], ?_, ?_⟩
    · simp only [declared_nodes, if_pos he, List.nil_append]
      unfold skl_load_file.in_empty at h
      split at h
      · split at h
        · cases h
        · simp only [outcome.ok.injEq, Prod.mk.injEq] at h
          rw [← h.1, he]
      · simp only [outcome.ok.injEq, Prod.mk.injEq] at h
        rw [← h.1, he]
    · unfold skl_load_file.in_empty at h
      split at h
      · split at h
        · cases h
        · simp only [outcome.ok.injEq, Prod.mk.injEq] at h
          rw [← h.2]; simp
      · simp only [outcome.ok.injEq, Prod.mk.injEq] at h
        rw [← h.2]; simp
  · rw [if_neg he] at h
    by_cases hn : state = state_load_nodes
    · rw [if_pos hn] at h
      unfold skl_load_file.in_nodes at h
      simp only [outcome.ok.injEq, Prod.mk.injEq] at h
      refine ⟨(sscanf_node line.toList).toList, ?_, ?_⟩
      · simp only [declared_nodes, if_neg he, if_pos hn]
        rw [← h.1, hn]
      · rw [← h.2]
        cases sscanf_node line.toList with
        | none => simp
        | some d =>
          obtain ⟨id, name, parent_id⟩ := d
          simp [skeleton_add_bone, bone_new]
    · rw [if_neg hn] at h
      by_cases hk : state = state_load_skeleton
      · rw [if_pos hk] at h
        refine ⟨[], ?_, ?_⟩
        · simp only [declared_nodes, if_neg he, if_neg hn, if_pos hk, List.nil_append]
          unfold skl_load_file.in_skeleton at h
          split at h
          · split at h
            · cases h
            · split at h
              · simp only [outcome.ok.injEq, Prod.mk.injEq] at h
                rw [← h.1, hk]
              · cases h
          · simp only [outcome.ok.injEq, Prod.mk.injEq] at h
            rw [← h.1, hk]
        · unfold skl_load_file.in_skeleton at h
          split at h
          · split at h
            · cases h
            · split at h
              · simp only [outcome.ok.injEq, Prod.mk.injEq] at h
                rw [← h.2, pose_ids]; simp
              · cases h
          · simp only [outcome.ok.injEq, Prod.mk.injEq] at h
            rw [← h.2]; simp
      · rw [if_neg hk] at h
        simp only [outcome.ok.injEq, Prod.mk.injEq] at h
        refine ⟨[], ?_, ?_⟩
        · simp only [declared_nodes, if_neg he, if_neg hn, if_neg hk, List.nil_append]
          rw [← h.1]
        · rw [← h.2]; simp

theorem lines_declared (euler : rotation_euler) (lines : List String) :
    ∀ (state state1 : Int) (s s1 : skeleton),
      skl_load_file.lines euler state s lines = .ok (state1, s1) →
      s1.bones.map bone.id = s.bones.map bone.id ++ (declared_nodes state lines).map Prod.fst := by
  induction lines with
  | nil =>
    intro state state1 s s1 h
    simp only [skl_load_file.lines, outcome.ok.injEq, Prod.mk.injEq] at h
    rw [← h.2]
    simp [declared_nodes]
  | cons line rest ih =>
    intro state state1 s s1 h
    simp only [skl_load_file.lines] at h
    cases hq : skl_load_file.line euler state s line.toList with
    | error e => rw [hq] at h; cases h
    | not_finite => rw [hq] at h; cases h
    | ok r =>
      obtain ⟨state2, s2⟩ := r
      rw [hq] at h
      obtain ⟨X, hX1, hX2⟩ := line_declared euler state state2 s s2 line rest hq
      rw [ih state2 state1 s2 s1 h, hX2, hX1]
      simp

/-- C12, as stated, fails: the rig file `ex_file_ids`, which declares the id 0
twice and the id -1 once, is loaded without failure, and the bone ids of the
skeleton returned are 0, 0 and -1. -/
theorem loaded_ids_not_distinct :
    ∃ s, skl_load_file ex_euler 3 (some ex_file_ids) = some (.ok s) ∧
      List.map bone.id s.bones = [0, 0, -1] ∧
      ¬ (List.map bone.id s.bones).Nodup := by
  have hl : skl_load_file.lines ex_euler state_load_empty skeleton_new ex_file_ids =
      .ok (state_load_empty, skeleton_add_bone (skeleton_add_bone (skeleton_add_bone skeleton_new
        "hip" 0 (-1)) "knee" 0 0) "toe" (-1) 0) := rfl
  obtain ⟨s, hs, _, hb⟩ := skl_load_file_returns ex_euler ex_file_ids _ _ hl 3 (Nat.le_refl 3)
  have hids : List.map bone.id s.bones = [0, 0, -1] := by rw [hb]; rfl
  refine ⟨s, hs, hids, ?_⟩
  rw [hids]
  decide

/-- C12, amended: for every input on which `skl_load_file` returns a skeleton,
the bone ids of that skeleton are, in order, the ids of the declaration lines
read in the NODES state, each as `sscanf` stores it in the `int` (the low 32
bits of the `long` read, so that `4294967295` is the id `-1`); so they are
pairwise distinct and none of them is `-1` exactly when that holds of the ids
stored for those lines. -/
theorem loaded_ids_are_declared_ids (euler : rotation_euler) (fuel : Nat)
    (lines : List String) (s : skeleton)
    (h : skl_load_file euler fuel (some lines) = some (.ok s)) :
    List.map bone.id s.bones = List.map Prod.fst (declared_nodes state_load_empty lines) ∧
    (((List.map bone.id s.bones).Nodup ∧ ∀ b, b ∈ s.bones → b.id ≠ -1) ↔
      ((List.map Prod.fst (declared_nodes state_load_empty lines)).Nodup ∧
        ∀ d, d ∈ declared_nodes state_load_empty lines → d.1 ≠ -1)) := by
  obtain ⟨lines1, state, s0, hfile, hl, hg⟩ := skl_load_file_ok_spec euler fuel _ s h
  cases hfile
  obtain ⟨hb, _⟩ := gen_inv_transforms_loop_spec fuel s0 _ s hg
  have hids : List.map bone.id s.bones =
      List.map Prod.fst (declared_nodes state_load_empty lines) := by
    rw [hb, lines_declared euler lines _ _ _ _ hl]
    rfl
  refine ⟨hids, ?_⟩
  have hmem : (∀ b, b ∈ s.bones → b.id ≠ -1) ↔
      ∀ d, d ∈ declared_nodes state_load_empty lines → d.1 ≠ -1 := by
    have e1 : (∀ b, b ∈ s.bones → b.id ≠ -1) ↔ (-1 : Int) ∉ List.map bone.id s.bones := by
      simp only [List.mem_map, not_exists, not_and]
    have e2 : (∀ d, d ∈ declared_nodes state_load_empty lines → d.1 ≠ -1) ↔
        (-1 : Int) ∉ List.map Prod.fst (declared_nodes state_load_empty lines) := by
      simp only [List.mem_map, not_exists, not_and]
    rw [e1, e2, hids]
  rw [hmem, hids]

theorem loaded_ids_are_declared_ids_witness :
    ∃ s, skl_load_file ex_euler 2 (some ex_file) = some (.ok s) ∧
      List.map bone.id s.bones = List.map Prod.fst (declared_nodes state_load_empty ex_file) ∧
      (((List.map bone.id s.bones).Nodup ∧ ∀ b, b ∈ s.bones → b.id ≠ -1) ↔
        ((List.map Prod.fst (declared_nodes state_load_empty ex_file)).Nodup ∧
          ∀ d, d ∈ declared_nodes state_load_empty ex_file → d.1 ≠ -1)) :=
  (skl_load_file_returns ex_euler ex_file _ _ (ex_file_lines ex_euler) 2 (Nat.le_refl 2)).elim
    fun s hs => ⟨s, hs.1, loaded_ids_are_declared_ids ex_euler 2 ex_file s hs.1⟩

/-! ## Files in the documented format -/

theorem line_empty_ok (euler : rotation_euler) (s : skeleton) (line : List Char)
    (hver : sscanf_version line = none ∨ sscanf_version line = some 1) :
    skl_load_file.line euler state_load_empty s line =
      .ok (if strstr line "skeleton".toList then state_load_skeleton
           else if strstr line "nodes".toList then state_load_nodes
           else state_load_empty, s) := by
  rw [line_in_empty]
  unfold skl_load_file.in_empty
  rcases hver with h | h
  · rw [h]
  · rw [h]
    simp only [ne_eq, not_true_eq_false, if_false]

theorem line_nodes_ok (euler : rotation_euler) (s : skeleton) (line : List Char) :
    skl_load_file.line euler state_load_nodes s line =
      .ok (if strstr line "end".toList then state_load_empty else state_load_nodes,
        match sscanf_node line with
        | some (id, name, parent_id) => skeleton_add_bone s name id parent_id
        | none => s) := by
  rw [line_in_nodes]
  rfl

theorem lines_declarations (euler : rotation_euler) (dlines : List String)
    (decls : List (Int × String × Int))
    (hd : List.Forall₂ (fun (l : String) d => sscanf_node l.toList = some d ∧
      strstr l.toList "end".toList = false) dlines decls) :
    ∀ s : skeleton, skl_load_file.lines euler state_load_nodes s dlines =
      .ok (state_load_nodes, add_declared s decls) := by
  induction dlines generalizing decls with
  | nil =>
    intro s
    cases hd
    rfl
  | cons l ls ih =>
    intro s
    cases hd with
    | cons hhead htail =>
      rename_i d ds
      obtain ⟨id, name, parent_id⟩ := d
      simp only [skl_load_file.lines, line_nodes_ok, hhead.1, hhead.2, Bool.false_eq_true,
        if_false]
      rw [ih ds htail]
      rfl

theorem skeleton_bone_id_exists (s : skeleton) (id : Int) (hid : id ≠ -1)
    (hmem : id ∈ s.bones.map bone.id) : ∃ b, (skeleton_bone_id s id).1 = some b := by
  unfold skeleton_bone_id
  rw [if_neg hid]
  cases hq : skeleton_bone_id.scan id s.bones 0 with
  | some i => exact ⟨i, rfl⟩
  | none =>
    have := (scan_none_iff id s.bones 0).1 hq
    simp only [List.mem_map] at hmem
    obtain ⟨b, hb, hbid⟩ := hmem
    exact absurd hbid (this b hb)

theorem pose_links (euler : rotation_euler) (s : skeleton) (b : Nat) (x y z rx ry rz : ℚ) :
    (skl_load_file.pose euler s b x y z rx ry rz).bones.map bone.link =
      s.bones.map bone.link := by
  apply List.ext_getElem?
  intro i
  rw [List.getElem?_map, List.getElem?_map, pose_getElem?]
  cases s.bones[i]? with
  | none => rfl
  | some bn =>
    by_cases hbi : b = i
    · simp [hbi, bone.link]
    · simp [hbi]

theorem links_ids (a b : List bone) (h : a.map bone.link = b.map bone.link) :
    a.map bone.id = b.map bone.id := by
  have e : ∀ l : List bone, l.map bone.id = (l.map bone.link).map Prod.fst := by
    intro l
    rw [List.map_map]
    rfl
  rw [e a, e b, h]

theorem lines_poses (euler : rotation_euler) (ids : List Int) (plines : List String)
    (hp : ∀ l, l ∈ plines → strstr l.toList "end".toList = false ∧
      ∃ (id : Int) (x y z rx ry rz : ℚ),
        sscanf_pose l.toList = some (pose.finite id x y z rx ry rz) ∧ id ≠ -1 ∧ id ∈ ids) :
    ∀ s : skeleton, s.bones.map bone.id = ids →
      ∃ s1, skl_load_file.lines euler state_load_skeleton s plines =
          .ok (state_load_skeleton, s1) ∧
        s1.bones.map bone.link = s.bones.map bone.link := by
  induction plines with
  | nil => intro s _; exact ⟨s, rfl, rfl⟩
  | cons l rest ih =>
    intro s hs
    obtain ⟨hend, id, x, y, z, rx, ry, rz, hscan, hid, hmem⟩ := hp l (List.mem_cons_self _ _)
    obtain ⟨b, hb⟩ := skeleton_bone_id_exists s id hid (by rw [hs]; exact hmem)
    have hstep := in_skeleton_found euler s l.toList id x y z rx ry rz b hscan hb
    simp only [hend, Bool.false_eq_true, if_false] at hstep
    have hl := pose_links euler s b x y z rx ry rz
    obtain ⟨s1, h1, h2⟩ := ih (fun l1 hm => hp l1 (List.mem_cons_of_mem _ hm))
      (skl_load_file.pose euler s b x y z rx ry rz)
      (by rw [links_ids _ _ hl, hs])
    refine ⟨s1, ?_, by rw [h2, hl]⟩
    simp only [skl_load_file.lines, hstep]
    exact h1

theorem add_declared_snoc (s : skeleton) (ds : List (Int × String × Int))
    (d : Int × String × Int) :
    add_declared s (ds ++ [d]) = skeleton_add_bone (add_declared s ds) d.2.1 d.1 d.2.2 := by
  simp [add_declared, List.foldl_append]

theorem add_declared_ids (ds : List (Int × String × Int)) :
    (add_declared skeleton_new ds).bones.map bone.id = ds.map Prod.fst := by
  induction ds using List.reverseRecOn with
  | nil => rfl
  | append_singleton ds d ih =>
    rw [add_declared_snoc]
    simp only [skeleton_add_bone, List.map_append, ih, bone_new, List.map_cons, List.map_nil]

theorem ids_getElem? (bones : List bone) (ds : List (Int × String × Int))
    (h : bones.map bone.id = ds.map Prod.fst) (i : Nat) :
    (bones[i]?).map bone.id = (ds[i]?).map Prod.fst := by
  rw [← List.getElem?_map, ← List.getElem?_map, h]

theorem lookup_first_earlier (s : skeleton) (ds : List (Int × String × Int))
    (h : s.bones.map bone.id = ds.map Prod.fst) (pid : Int) (k : Nat) (hk : ds.length ≤ k) :
    first_earlier ds k pid (skeleton_bone_id s pid).1 := by
  have hlen : s.bones.length = ds.length := by
    have := congrArg List.length h
    simpa using this
  refine ⟨fun hp => by rw [hp, skeleton_bone_id_sentinel], ?_, ?_⟩
  · intro j hj
    obtain ⟨_, ⟨b, hb, hbid⟩, hfirst⟩ := skeleton_bone_id_some_spec s pid j hj
    have hjl : j < s.bones.length := (List.getElem?_eq_some.1 hb).1
    refine ⟨by omega, ?_, ?_⟩
    · have := ids_getElem? s.bones ds h j
      rw [hb] at this
      simp only [Option.map_some'] at this
      cases hd : ds[j]? with
      | none => rw [hd] at this; simp at this
      | some dj =>
        rw [hd] at this
        simp only [Option.map_some', Option.some.injEq] at this
        exact ⟨dj, rfl, by rw [← this, hbid]⟩
    · intro i di hi hdi heq
      have := ids_getElem? s.bones ds h i
      rw [hdi] at this
      cases hbi : s.bones[i]? with
      | none => rw [hbi] at this; simp at this
      | some bi =>
        rw [hbi] at this
        simp only [Option.map_some', Option.some.injEq] at this
        exact hfirst i bi hi hbi (by rw [this, heq])
  · intro hnone
    by_cases hp : pid = -1
    · exact Or.inl hp
    · right
      intro i di hi hdi heq
      have habs : ∀ b, b ∈ s.bones → b.id ≠ pid := by
        unfold skeleton_bone_id at hnone
        rw [if_neg hp] at hnone
        cases hq : skeleton_bone_id.scan pid s.bones 0 with
        | some x => rw [hq] at hnone; simp at hnone
        | none => exact (scan_none_iff pid s.bones 0).1 hq
      have := ids_getElem? s.bones ds h i
      rw [hdi] at this
      cases hbi : s.bones[i]? with
      | none => rw [hbi] at this; simp at this
      | some bi =>
        rw [hbi] at this
        simp only [Option.map_some', Option.some.injEq] at this
        exact habs bi (List.getElem?_mem hbi) (by rw [this, heq])

theorem first_earlier_append (ds : List (Int × String × Int)) (d : Int × String × Int)
    (k : Nat) (hk : k < ds.length) (pid : Int) (parent : Option Nat)
    (h : first_earlier ds k pid parent) : first_earlier (ds ++ [d]) k pid parent := by
  obtain ⟨h1, h2, h3⟩ := h
  have e : ∀ i, i < ds.length → (ds ++ [d])[i]? = ds[i]? :=
    fun i hi => List.getElem?_append_left hi
  refine ⟨h1, ?_, ?_⟩
  · intro j hj
    obtain ⟨hjk, hex, hfirst⟩ := h2 j hj
    refine ⟨hjk, by rw [e j (by omega)]; exact hex, ?_⟩
    intro i di hi hdi
    rw [e i (by omega)] at hdi
    exact hfirst i di hi hdi
  · intro hnone
    rcases h3 hnone with hp | hall
    · exact Or.inl hp
    · right
      intro i di hi hdi
      rw [e i (by omega)] at hdi
      exact hall i di hi hdi

theorem add_declared_spec (ds : List (Int × String × Int)) :
    (add_declared skeleton_new ds).bones.length = ds.length ∧
    ∀ (k : Nat) (d : Int × String × Int), ds[k]? = some d →
      ∃ bn : bone, (add_declared skeleton_new ds).bones[k]? = some bn ∧
        bn.id = d.1 ∧ bn.name = d.2.1 ∧ first_earlier ds k d.2.2 bn.parent := by
  induction ds using List.reverseRecOn with
  | nil =>
    refine ⟨rfl, ?_⟩
    intro k d hk
    simp at hk
  | append_singleton ds d0 ih =>
    obtain ⟨hlen, hall⟩ := ih
    rw [add_declared_snoc]
    refine ⟨by simp [skeleton_add_bone, hlen], ?_⟩
    intro k d hk
    rcases Nat.lt_or_ge k ds.length with hlt | hge
    · rw [List.getElem?_append_left hlt] at hk
      obtain ⟨bn, hb, hid, hname, hpar⟩ := hall k d hk
      refine ⟨bn, ?_, hid, hname, first_earlier_append ds d0 k hlt _ _ hpar⟩
      simp only [skeleton_add_bone]
      rw [List.getElem?_append_left (by omega)]
      exact hb
    · rw [List.getElem?_append_right hge] at hk
      have hk0 : k - ds.length = 0 := by
        by_contra hne
        obtain ⟨m, hm⟩ := Nat.exists_eq_succ_of_ne_zero hne
        rw [hm] at hk
        simp at hk
      rw [hk0] at hk
      simp only [List.getElem?_cons_zero, Option.some.injEq] at hk
      subst hk
      have hkeq : k = ds.length := by omega
      subst hkeq
      refine ⟨{ id := d0.1, name := d0.2.1, position := v3_zero, rotation := m44_id,
                parent := (skeleton_bone_id (add_declared skeleton_new ds) d0.2.2).1 },
        ?_, rfl, rfl, ?_⟩
      · simp only [skeleton_add_bone]
        rw [List.getElem?_append_right (by omega)]
        simp [hlen, bone_new]
      · simp only
        have hfe := lookup_first_earlier (add_declared skeleton_new ds) ds
          (add_declared_ids ds) d0.2.2 ds.length (Nat.le_refl _)
        obtain ⟨h1, h2, h3⟩ := hfe
        have e : ∀ i, i < ds.length → (ds ++ [d0])[i]? = ds[i]? :=
          fun i hi => List.getElem?_append_left hi
        refine ⟨h1, ?_, ?_⟩
        · intro j hj
          obtain ⟨hjk, hex, hfirst⟩ := h2 j hj
          refine ⟨hjk, by rw [e j hjk]; exact hex, ?_⟩
          intro i di hi hdi
          rw [e i (by omega)] at hdi
          exact hfirst i di hi hdi
        · intro hnone
          rcases h3 hnone with hp | hno
          · exact Or.inl hp
          · right
            intro i di hi hdi
            rw [e i hi] at hdi
            exact hno i di hi hdi

theorem line_skeleton_end (euler : rotation_euler) (s : skeleton) (line : List Char)
    (h0 : sscanf_pose line = none) (h1 : strstr line "end".toList = true) :
    skl_load_file.line euler state_load_skeleton s line = .ok (state_load_empty, s) := by
  rw [line_in_skeleton]
  simp only [skl_load_file.in_skeleton, h0, h1, if_true]

theorem links_getElem? (a b : List bone) (h : a.map bone.link = b.map bone.link) (k : Nat)
    (bn : bone) (hb : b[k]? = some bn) :
    ∃ bn1, a[k]? = some bn1 ∧ bn1.id = bn.id ∧ bn1.name = bn.name ∧ bn1.parent = bn.parent := by
  have e : (a[k]?).map bone.link = (b[k]?).map bone.link := by
    rw [← List.getElem?_map, ← List.getElem?_map, h]
  rw [hb] at e
  cases ha : a[k]? with
  | none => rw [ha] at e; simp at e
  | some bn1 =>
    rw [ha] at e
    simp only [Option.map_some', Option.some.injEq, bone.link, Prod.mk.injEq] at e
    exact ⟨bn1, rfl, e.1, e.2.1, e.2.2⟩

theorem documented_file_lines (euler : rotation_euler) (v nl el sl el2 : String)
    (dlines plines : List String) (decls : List (Int × String × Int))
    (hv : sscanf_version v.toList = some 1 ∧ strstr v.toList "nodes".toList = false ∧
      strstr v.toList "skeleton".toList = false)
    (hn : sscanf_version nl.toList = none ∧ strstr nl.toList "nodes".toList = true ∧
      strstr nl.toList "skeleton".toList = false)
    (hd : List.Forall₂ (fun (l : String) d => sscanf_node l.toList = some d ∧
      strstr l.toList "end".toList = false) dlines decls)
    (he : sscanf_node el.toList = none ∧ strstr el.toList "end".toList = true)
    (hs : sscanf_version sl.toList = none ∧ strstr sl.toList "skeleton".toList = true)
    (hp : ∀ l, l ∈ plines → strstr l.toList "end".toList = false ∧
      ∃ (id : Int) (x y z rx ry rz : ℚ),
        sscanf_pose l.toList = some (pose.finite id x y z rx ry rz) ∧ id ≠ -1 ∧
          id ∈ decls.map Prod.fst)
    (he2 : sscanf_pose el2.toList = none ∧ strstr el2.toList "end".toList = true) :
    ∃ s1, skl_load_file.lines euler state_load_empty skeleton_new
        (v :: nl :: (dlines ++ el :: sl :: (plines ++ [el2]))) = .ok (state_load_empty, s1) ∧
      s1.bones.map bone.link = (add_declared skeleton_new decls).bones.map bone.link := by
  obtain ⟨s1, h1, h2⟩ := lines_poses euler (decls.map Prod.fst) plines hp
    (add_declared skeleton_new decls) (add_declared_ids decls)
  refine ⟨s1, ?_, h2⟩
  simp only [skl_load_file.lines, line_empty_ok euler _ _ (Or.inr hv.1), hv.2.1, hv.2.2,
    line_empty_ok euler _ _ (Or.inl hn.1), hn.2.1, hn.2.2, Bool.false_eq_true, if_false,
    if_true]
  rw [lines_append, lines_declarations euler dlines decls hd]
  simp only [skl_load_file.lines, line_nodes_ok, he.1, he.2, if_true,
    line_empty_ok euler _ _ (Or.inl hs.1), hs.2]
  rw [lines_append, h1]
  simp only [skl_load_file.lines, line_skeleton_end euler _ _ he2.1 he2.2]

/-- C16, as stated, fails: in the rig file `ex_file_tendon`, which is in the
documented format with the three declaration lines `0 root -1`,
`1 tendon 0` and `2 toe 1`, the name `tendon` contains the text `end`, which
ends the nodes section, and the skeleton loaded has two bones, not three. -/
theorem declaration_line_with_end_text :
    ex_file_tendon =
      ["version 1", "nodes", "0 root -1", "1 tendon 0", "2 toe 1", "end", "skeleton", "end"] ∧
    List.map (sscanf_node ∘ String.toList) ["0 root -1", "1 tendon 0", "2 toe 1"] =
      [some (0, "root", -1), some (1, "tendon", 0), some (2, "toe", 1)] ∧
    strstr "1 tendon 0".toList "end".toList = true ∧
    ∃ s, skl_load_file ex_euler 3 (some ex_file_tendon) = some (.ok s) ∧ s.num_bones = 2 := by
  refine ⟨rfl, rfl, rfl, ?_⟩
  have hl : skl_load_file.lines ex_euler state_load_empty skeleton_new ex_file_tendon =
      .ok (state_load_empty,
        skeleton_add_bone (skeleton_add_bone skeleton_new "root" 0 (-1)) "tendon" 1 0) := rfl
  obtain ⟨s, hs, _, hb⟩ := skl_load_file_returns ex_euler ex_file_tendon _ _ hl 3 (by decide)
  exact ⟨s, hs, by simp only [skeleton.num_bones, hb]; rfl⟩

/-- C16, amended: each declaration line of the nodes section adds one bone,
provided no declaration line contains the text `end` and every pose line
gives six finite numbers to a declared id other than `-1`, the ids being the
values that `sscanf` stores in the `int`.  For an input made of a `version 1`
line, a `nodes` line, `n` declaration lines `<id> <name> <parent_id>`, an
`end` line, a `skeleton` line, pose lines and an `end` line, the loader
returns a skeleton with exactly `n` bones; the `k`-th bone has the id and the
name of the `k`-th declaration line, and its parent is the first earlier bone
whose id is that line's parent id, none when the parent id is `-1` or no
earlier bone has it.  For the two-bone example of the specification this
gives 2 bones, bone 1 with parent bone 0 and position `(1, 3, 2)`. -/
theorem nodes_section_adds_bones (euler : rotation_euler) :
    (∀ (v nl el sl el2 : String) (dlines plines : List String)
      (decls : List (Int × String × Int)) (fuel : Nat),
      (sscanf_version v.toList = some 1 ∧ strstr v.toList "nodes".toList = false ∧
        strstr v.toList "skeleton".toList = false) →
      (sscanf_version nl.toList = none ∧ strstr nl.toList "nodes".toList = true ∧
        strstr nl.toList "skeleton".toList = false) →
      List.Forall₂ (fun (l : String) d => sscanf_node l.toList = some d ∧
        strstr l.toList "end".toList = false) dlines decls →
      (sscanf_node el.toList = none ∧ strstr el.toList "end".toList = true) →
      (sscanf_version sl.toList = none ∧ strstr sl.toList "skeleton".toList = true) →
      (∀ l, l ∈ plines → strstr l.toList "end".toList = false ∧
        ∃ (id : Int) (x y z rx ry rz : ℚ),
          sscanf_pose l.toList = some (pose.finite id x y z rx ry rz) ∧ id ≠ -1 ∧
            id ∈ decls.map Prod.fst) →
      (sscanf_pose el2.toList = none ∧ strstr el2.toList "end".toList = true) →
      decls.length ≤ fuel →
      ∃ s, skl_load_file euler fuel
          (some (v :: nl :: (dlines ++ el :: sl :: (plines ++ [el2])))) = some (.ok s) ∧
        s.num_bones = decls.length ∧
        ∀ (k : Nat) (id : Int) (name : String) (parent_id : Int),
          decls[k]? = some (id, name, parent_id) →
          ∃ bn : bone, s.bones[k]? = some bn ∧ bn.id = id ∧ bn.name = name ∧
            (parent_id = -1 → bn.parent = none) ∧
            (∀ j, bn.parent = some j →
              j < k ∧ (∃ dj, decls[j]? = some dj ∧ dj.1 = parent_id) ∧
              ∀ (i : Nat) (di : Int × String × Int), i < j → decls[i]? = some di →
                di.1 ≠ parent_id) ∧
            (bn.parent = none →
              parent_id = -1 ∨ ∀ (i : Nat) (di : Int × String × Int), i < k →
                decls[i]? = some di → di.1 ≠ parent_id)) ∧
    (∀ fuel, 2 ≤ fuel →
      ∃ s, skl_load_file euler fuel (some ex_file) = some (.ok s) ∧ s.num_bones = 2 ∧
        ∃ bn : bone, s.bones[1]? = some bn ∧ bn.parent = some 0 ∧ bn.position = v3 1 3 2) := by
  constructor
  · intro v nl el sl el2 dlines plines decls fuel hv hn hd he hs hp he2 hf
    obtain ⟨s1, hl, hlinks⟩ := documented_file_lines euler v nl el sl el2 dlines plines decls
      hv hn hd he hs hp he2
    obtain ⟨hlen, hall⟩ := add_declared_spec decls
    have hn1 : s1.num_bones = decls.length := by
      have := congrArg List.length hlinks
      simp only [List.length_map] at this
      simp only [skeleton.num_bones, this, hlen]
    obtain ⟨s, hs1, _, hb⟩ := skl_load_file_returns euler _ _ s1 hl fuel (by omega)
    refine ⟨s, hs1, by simp only [skeleton.num_bones, hb]; exact hn1, ?_⟩
    intro k id name parent_id hk
    obtain ⟨bn, hbn, hid, hname, hpar⟩ := hall k _ hk
    obtain ⟨bn1, hbn1, e1, e2, e3⟩ := links_getElem? s1.bones _ hlinks k bn hbn
    refine ⟨bn1, by rw [hb]; exact hbn1, by rw [e1, hid], by rw [e2, hname], ?_⟩
    rw [e3]
    exact hpar
  · intro fuel hf
    obtain ⟨s, hs, _, hb⟩ := skl_load_file_returns euler ex_file _ _ (ex_file_lines euler) fuel hf
    refine ⟨s, hs, by simp only [skeleton.num_bones, hb]; rfl, ?_⟩
    rw [hb]
    exact ⟨_, rfl, rfl, rfl⟩

theorem nodes_section_adds_bones_witness :
    ∃ s, skl_load_file ex_euler 2
        (some ("version 1" :: "nodes" :: (["0 root -1", "1 child 0"] ++
          "end" :: "skeleton" :: (["0 0 0 0 0 0 0", "1 1 2 3 0 0 0"] ++ ["end"])))) =
        some (.ok s) ∧
      s.num_bones = 2 ∧
      ∃ bn : bone, s.bones[1]? = some bn ∧ bn.id = 1 ∧ bn.name = "child" ∧
        ∃ j, bn.parent = some j ∧ j < 1 := by
  obtain ⟨s, hs, hn, hall⟩ := (nodes_section_adds_bones ex_euler).1
    "version 1" "nodes" "end" "skeleton" "end" ["0 root -1", "1 child 0"]
    ["0 0 0 0 0 0 0", "1 1 2 3 0 0 0"] [(0, "root", -1), (1, "child", 0)] 2
    ⟨rfl, rfl, rfl⟩ ⟨rfl, rfl, rfl⟩ (.cons ⟨by rfl, rfl⟩ (.cons ⟨by rfl, rfl⟩ .nil))
    ⟨rfl, rfl⟩ ⟨rfl, rfl⟩
    (fun l hl => by
      simp only [List.mem_cons, List.mem_singleton, List.not_mem_nil, or_false] at hl
      rcases hl with rfl | rfl
      · exact ⟨rfl, 0, 0, 0, 0, 0, 0, 0, ex_pose_root, by decide, by decide⟩
      · exact ⟨rfl, 1, 1, 2, 3, 0, 0, 0, ex_pose_child, by decide, by decide⟩)
    ⟨rfl, rfl⟩ (Nat.le_refl 2)
  obtain ⟨bn, hb, hid, hname, _, h2, h3⟩ := hall 1 1 "child" 0 rfl
  refine ⟨s, hs, hn, bn, hb, hid, hname, ?_⟩
  cases hp : bn.parent with
  | none =>
    rcases h3 hp with h | h
    · exact absurd h (by decide)
    · exact absurd rfl (h 0 (0, "root", -1) (by decide) rfl)
  | some j => exact ⟨j, rfl, (h2 j hp).1⟩

end Corange
